import Mathlib

/-!
Verification of the Blaze chunk-addressed version-control engine.

This file shallowly embeds the core of the Rust sources (`chunks.rs`,
`core.rs`, `files.rs`, `database.rs`) into Lean:

* byte sequences are `List Nat`;
* the BLAKE3 hasher is an abstract function `H : Bytes → Bytes`
  (a streaming hasher is modelled as `H` applied to the concatenation of
  all `update` calls); collision resistance is an explicit hypothesis;
* the zstd / LZ4 libraries are abstract codecs with their documented
  round-trip contracts as hypotheses;
* the `f32` similarity score comparison of `calculate_similarity` is an
  abstract boolean oracle `simOk` (the claims under study do not depend
  on which candidate is chosen);
* filesystem state and the in-memory caches of `ChunkStore` are explicit
  association lists, and stateful methods are state-passing functions;
* the recursive `load_chunk_uncached` is given an explicit recursion
  budget (`fuel`), mirroring the bounded call stack of the original.
-/

namespace Blaze

/-- Byte sequences (`Vec<u8>` / `&[u8]`). Digests (64-char lowercase hex
strings) are also byte sequences. -/
abbrev Bytes := List Nat

/-- `config.rs`: `CHUNK_SIZE = 2 * 1024 * 1024`. -/
def CHUNK_SIZE : Nat := 2 * 1024 * 1024

/-- `zstd::bulk::decompress` is called with a 16 MiB output cap in
`decompress_chunk_data`. -/
def ZSTD_MAX : Nat := 16 * 1024 * 1024

/-- Errors (`errors.rs`), restricted to the kinds the embedded code can
raise. -/
inductive BlazeError where
  | ioErr : BlazeError
  | chunk : String → BlazeError
  | repository : String → BlazeError
  deriving DecidableEq, Repr

/-- First-match association-list lookup (models `HashMap::get` and
single-file reads keyed by digest). -/
def lookupA {α β : Type} [DecidableEq α] : List (α × β) → α → Option β
  | [], _ => none
  | (k, v) :: rest, k' => if k = k' then some v else lookupA rest k'

/-- `HashMap::insert`: replace the value if the key is present, append
otherwise. -/
def insertA {α β : Type} [DecidableEq α] : List (α × β) → α → β → List (α × β)
  | [], k, v => [(k, v)]
  | (k', v') :: rest, k, v =>
      if k' = k then (k, v) :: rest else (k', v') :: insertA rest k v

/-! ## Hash abstraction -/

/-- An injective stand-in hash used to instantiate witnesses: an
injective encoding of the byte list into the head, padded to 64
"characters". -/
def encodeL : Bytes → Nat
  | [] => 0
  | a :: rest => Nat.pair a (encodeL rest) + 1

/-- Concrete injective, zero-free, 64-wide digest function used by
witnesses in place of BLAKE3. -/
def hashW (d : Bytes) : Bytes := (encodeL d + 1) :: List.replicate 63 1

/-- Facts about BLAKE3 hex digests used by the development: collision
resistance (injectivity on observed inputs), no NUL byte (hex is ASCII
`0-9a-f`), and width 64. -/
structure HashOk (H : Bytes → Bytes) : Prop where
  inj : Function.Injective H
  zeroFree : ∀ d, (0 : Nat) ∉ H d
  len64 : ∀ d, (H d).length = 64

/-! ## Codec abstraction (`zstd`, `lz4_flex`) -/

/-- The external compression libraries as used by `chunks.rs`. -/
structure Codec where
  zstdCompress : Bytes → Nat → Option Bytes
  zstdDecompress : Bytes → Option Bytes
  lz4Compress : Bytes → Bytes
  lz4Decompress : Bytes → Option Bytes

/-- Documented library contracts: decompression inverts compression
(zstd subject to the 16 MiB output cap used by the call site). -/
structure CodecOk (c : Codec) : Prop where
  zstdRt : ∀ d lvl out, d.length ≤ ZSTD_MAX →
      c.zstdCompress d lvl = some out → c.zstdDecompress out = some d
  lz4Rt : ∀ d, c.lz4Decompress (c.lz4Compress d) = some d

/-- Concrete codec for witnesses: zstd always declines, LZ4 prepends the
length (as `lz4_flex::compress_prepend_size` prepends a size header). -/
def codecW : Codec where
  zstdCompress := fun _ _ => none
  zstdDecompress := fun _ => none
  lz4Compress := fun d => d.length :: d
  lz4Decompress := fun l =>
    match l with
    | [] => none
    | n :: rest => if rest.length = n then some rest else none

/-- Parameters of a `ChunkStore` run: the codec libraries, the hash
function, the `f32` similarity-threshold oracle of
`calculate_similarity`, and whether the build has `debug_assertions`. -/
structure Env where
  codec : Codec
  H : Bytes → Bytes
  simOk : Bytes → Bytes → Bool
  debug : Bool

/-! ## `compress_chunk_data` / `decompress_chunk_data` (`chunks.rs`) -/

/-- Size-tiered zstd level selection in `compress_chunk_data`. -/
def compressionLevel (n : Nat) : Nat :=
  if n > 1024 * 1024 then 6 else if n > 64 * 1024 then 4 else 2

/-- `ChunkStore::compress_chunk_data`: raw below 128 bytes; zstd with a
10% savings requirement; LZ4 fallback with a 5% requirement; raw
otherwise.  The leading byte is the type tag. -/
def compressChunkData (c : Codec) (data : Bytes) : Bytes :=
  if data.length < 128 then
    0 :: data
  else
    let lz4Fallback :=
      let compressed := c.lz4Compress data
      if compressed.length < data.length * 95 / 100 then 1 :: compressed
      else 0 :: data
    match c.zstdCompress data (compressionLevel data.length) with
    | some compressed =>
        if compressed.length < data.length * 9 / 10 then 2 :: compressed
        else lz4Fallback
    | none => lz4Fallback

/-- `ChunkStore::decompress_chunk_data`: dispatch on the tag byte. -/
def decompressChunkData (c : Codec) (compressed : Bytes) :
    Except BlazeError Bytes :=
  match compressed with
  | [] => .error (.chunk "Empty compressed data")
  | t :: rest =>
      if t = 0 then .ok rest
      else if t = 1 then
        match c.lz4Decompress rest with
        | some d => .ok d
        | none => .error (.chunk "LZ4 decompression failed")
      else if t = 2 then
        match c.zstdDecompress rest with
        | some d => .ok d
        | none => .error (.chunk "zstd decompression failed")
      else .error (.chunk "Unknown compression type")

/-! ## Delta encoding (`create_delta` / `apply_delta`) -/

/-- Byte at index `i`, or `0` past the end (`if i < len { l[i] } else { 0 }`). -/
def pb (l : Bytes) (i : Nat) : Nat := l.getD i 0

/-- `(n as u32).to_le_bytes()`. -/
def toLe32 (n : Nat) : Bytes :=
  [n % 256, n / 256 % 256, n / 65536 % 256, n / 16777216 % 256]

/-- `u32::from_le_bytes` on the first four bytes. -/
def fromLe32 (l : Bytes) : Nat :=
  pb l 0 + 256 * pb l 1 + 65536 * pb l 2 + 16777216 * pb l 3

/-- `(count as u16).to_le_bytes()`. -/
def toLe16 (n : Nat) : Bytes := [n % 256, n / 256 % 256]

/-- Length of the run of positions with equal (zero-padded) bytes
starting at `i`, stopping at `maxLen` or at the cap (`u16::MAX` in the
source). -/
def sameRunLen (base new : Bytes) (maxLen i cap : Nat) : Nat :=
  if 0 < cap ∧ i < maxLen ∧ pb base i = pb new i then
    sameRunLen base new maxLen (i + 1) (cap - 1) + 1
  else 0
  termination_by cap
  decreasing_by omega

/-- Length of the run of positions with differing (zero-padded) bytes
starting at `i`, stopping at `maxLen` or at the cap (255). -/
def diffRunLen (base new : Bytes) (maxLen i cap : Nat) : Nat :=
  if 0 < cap ∧ i < maxLen ∧ pb base i ≠ pb new i then
    diffRunLen base new maxLen (i + 1) (cap - 1) + 1
  else 0
  termination_by cap
  decreasing_by omega

/-- Command-emitting loop of `ChunkStore::create_delta`. -/
def createDeltaLoop (base new : Bytes) (maxLen : Nat) (i : Nat) : Bytes :=
  if hi : i < maxLen then
    if heq : pb base i = pb new i then
      let c := sameRunLen base new maxLen i 65535
      0 :: toLe16 c ++ createDeltaLoop base new maxLen (i + c)
    else
      let c := diffRunLen base new maxLen i 255
      1 :: c :: ((List.range c).map fun j => pb new (i + j)) ++
        createDeltaLoop base new maxLen (i + c)
  else []
  termination_by maxLen - i
  decreasing_by
  · have h1 : 0 < sameRunLen base new maxLen i 65535 := by
      rw [sameRunLen, if_pos ⟨by norm_num, hi, heq⟩]
      exact Nat.succ_pos _
    omega
  · have h1 : 0 < diffRunLen base new maxLen i 255 := by
      rw [diffRunLen, if_pos ⟨by norm_num, hi, heq⟩]
      exact Nat.succ_pos _
    omega

/-- `ChunkStore::create_delta`. -/
def createDelta (base new : Bytes) : Bytes :=
  if base = [] ∨ new = [] then new
  else toLe32 new.length ++
    createDeltaLoop base new (max base.length new.length) 0

/-- Inner loop of `apply_delta` for a command-`0` ("same") run: copy
`count` bytes from the base (zero-padded), stopping pushes once the
output reaches `orig`; `base_pos` always advances. -/
def pushSame (base : Bytes) : Nat → Nat → Bytes → Nat → Bytes × Nat
  | basePos, _, acc, 0 => (acc, basePos)
  | basePos, orig, acc, k + 1 =>
      let acc' :=
        if basePos < base.length ∧ acc.length < orig then
          acc ++ [pb base basePos]
        else if acc.length < orig then acc ++ [0] else acc
      pushSame base (basePos + 1) orig acc' k

/-- Inner loop of `apply_delta` for a command-`1` ("different") run:
copy `count` bytes from the delta stream while available (zero-padding
otherwise); returns the new output, the number of delta bytes consumed,
and the advanced `base_pos`. -/
def pushDiff : List Nat → Nat → Nat → Bytes → Nat → Bytes × Nat × Nat
  | _, basePos, _, acc, 0 => (acc, 0, basePos)
  | avail, basePos, orig, acc, k + 1 =>
      match avail with
      | x :: rest =>
          if acc.length < orig then
            let r := pushDiff rest (basePos + 1) orig (acc ++ [x]) k
            (r.1, r.2.1 + 1, r.2.2)
          else pushDiff (x :: rest) (basePos + 1) orig acc k
      | [] =>
          if acc.length < orig then pushDiff [] (basePos + 1) orig (acc ++ [0]) k
          else pushDiff [] (basePos + 1) orig acc k

/-- `Vec::resize(n, 0)`. -/
def resizeL (l : Bytes) (n : Nat) : Bytes :=
  l.take n ++ List.replicate (n - l.length) 0

/-- Main loop of `ChunkStore::apply_delta` over the remaining command
stream (`cmds` is the suffix of the delta starting at `delta_pos`). -/
def applyDeltaLoop (base : Bytes) (cmds : List Nat) (basePos orig : Nat)
    (acc : Bytes) : Bytes :=
  if acc.length ≥ orig then acc
  else
    match cmds with
    | [] => acc
    | 0 :: rest =>
        match rest with
        | a :: b :: rest' =>
            let count := a + 256 * b
            let r := pushSame base basePos orig acc count
            applyDeltaLoop base rest' r.2 orig r.1
        | _ => acc
    | 1 :: rest =>
        match rest with
        | cnt :: rest' =>
            let r := pushDiff rest' basePos orig acc cnt
            applyDeltaLoop base (rest'.drop r.2.1) r.2.2 orig r.1
        | [] => acc
    | _ :: rest => applyDeltaLoop base rest basePos orig acc
  termination_by cmds.length
  decreasing_by
  all_goals simp [List.length_drop]
  all_goals omega

/-- `ChunkStore::apply_delta`. -/
def applyDelta (base delta : Bytes) : Except BlazeError Bytes :=
  if delta.length < 4 then .ok delta
  else
    let orig := fromLe32 (delta.take 4)
    .ok (resizeL (applyDeltaLoop base (delta.drop 4) 0 orig []) orig)

/-! ## `ChunkStore` state -/

/-- `files.rs` `FileChunk`. -/
structure FileChunk where
  hash : Bytes
  size : Nat
  data : Bytes
  deriving DecidableEq, Repr

/-- `FileChunk::new` (`compute_chunk_hash` is the abstract `H`). -/
def mkFileChunk (H : Bytes → Bytes) (data : Bytes) : FileChunk :=
  { hash := H data, size := data.length, data := data }

/-- `ChunkStore` fields.  The on-disk fan-out tree is the association
list `fs` keyed by the full digest (`<hh><rest>`, the two path components
concatenated); for digests of length < 2, `get_chunk_path` stores the
file directly under the chunks root. -/
structure StoreState where
  fs : List (Bytes × Bytes)
  chunkCache : List (Bytes × Bytes)
  maxCacheSize : Nat
  currentCacheSize : Nat
  existenceCache : List Bytes
  negativeCache : List Bytes
  deltaCache : List (Bytes × List Bytes)
  deriving DecidableEq, Repr

/-- `ChunkStore::new` on a fresh directory. -/
def initialStore : StoreState where
  fs := []
  chunkCache := []
  maxCacheSize := 64 * 1024 * 1024
  currentCacheSize := 0
  existenceCache := []
  negativeCache := []
  deltaCache := []

/-- `ChunkStore::new` over an existing chunks directory (e.g. the next
process run): the on-disk tree survives, every in-memory cache starts
empty. -/
def reopenStore (s : StoreState) : StoreState :=
  { initialStore with fs := s.fs }

/-- `ChunkStore::chunk_exists`: byte cache, then existence cache, then
negative cache, then the filesystem (updating the caches with the
outcome). -/
def chunkExists (s : StoreState) (h : Bytes) : Bool × StoreState :=
  if (lookupA s.chunkCache h).isSome then (true, s)
  else if h ∈ s.existenceCache then (true, s)
  else if h ∈ s.negativeCache then (false, s)
  else if (lookupA s.fs h).isSome then
    (true, { s with existenceCache := h :: s.existenceCache })
  else
    (false, { s with negativeCache := h :: s.negativeCache })

/-- Eviction loop of `maybe_cache_chunk`: while adding would overflow
the budget and the cache is nonempty, drop an entry (`iter().next()`,
modelled as the list head) and subtract its size. -/
def evictLoop (cache : List (Bytes × Bytes)) (cur dataSize maxSize : Nat) :
    List (Bytes × Bytes) × Nat :=
  match cache with
  | [] => ([], cur)
  | (k, v) :: rest =>
      if cur + dataSize > maxSize then
        evictLoop rest (cur - v.length) dataSize maxSize
      else ((k, v) :: rest, cur)

/-- `ChunkStore::maybe_cache_chunk`. -/
def maybeCacheChunk (s : StoreState) (h : Bytes) (data : Bytes) : StoreState :=
  let dataSize := data.length
  if dataSize > s.maxCacheSize / 4 then s
  else
    let r := evictLoop s.chunkCache s.currentCacheSize dataSize s.maxCacheSize
    { s with chunkCache := insertA r.1 h data,
             currentCacheSize := r.2 + dataSize }

/-- After a successful write of `h`: cache the bytes, record existence,
drop `h` from the negative cache. -/
def markStored (s : StoreState) (h : Bytes) (data : Bytes) : StoreState :=
  let s1 := maybeCacheChunk s h data
  { s1 with existenceCache := h :: s1.existenceCache,
            negativeCache := s1.negativeCache.filter (fun x => x ≠ h) }

/-- `ChunkStore::store_chunk`: skip if present, else write the
compressed record atomically and update the caches. -/
def storeChunk (c : Codec) (s : StoreState) (ch : FileChunk) :
    StoreState × Except BlazeError Bytes :=
  let e := chunkExists s ch.hash
  if e.1 then (e.2, .ok ch.hash)
  else
    let record := compressChunkData c ch.data
    let s2 := { e.2 with fs := insertA e.2.fs ch.hash record }
    (markStored s2 ch.hash ch.data, .ok ch.hash)

/-- The delta record layout written by `store_chunks`:
tag `3`, UTF-8 base digest, NUL, compressed delta payload. -/
def deltaRecord (baseHash payload : Bytes) : Bytes :=
  3 :: (baseHash ++ 0 :: payload)

/-- Tag dispatch of `load_chunk_uncached` on one record's bytes:
type 3 parses the base digest up to the first NUL, loads the base
through `loadBase`, decompresses and applies the delta; every other tag
goes through `decompress_chunk_data`. -/
def decodeRecord (c : Codec) (loadBase : Bytes → Except BlazeError Bytes)
    (fileData : Bytes) : Except BlazeError Bytes :=
  if fileData.headD 0 = 3 then
    let nullPos := (fileData.findIdx? (fun x => x = 0)).getD fileData.length
    if nullPos + 1 ≥ fileData.length then
      .error (.chunk "Invalid delta format")
    else
      let baseHash := (fileData.drop 1).take (nullPos - 1)
      let compressedDelta := fileData.drop (nullPos + 1)
      match loadBase baseHash with
      | .error er => .error er
      | .ok baseData =>
          match decompressChunkData c compressedDelta with
          | .error er => .error er
          | .ok delta => applyDelta baseData delta
  else decompressChunkData c fileData

/-- The body of `ChunkStore::load_chunk_uncached` for one digest: open
the record file, reject empty files, decode by tag, and (only under
`debug_assertions`) recompute and check the digest. -/
def loadStep (e : Env) (fs : List (Bytes × Bytes))
    (loadBase : Bytes → Except BlazeError Bytes) (h : Bytes) :
    Except BlazeError Bytes :=
  match lookupA fs h with
  | none => .error .ioErr
  | some fileData =>
      if fileData = [] then .error (.chunk "Empty chunk file")
      else
        match decodeRecord e.codec loadBase fileData with
        | .error er => .error er
        | .ok data =>
            if e.debug ∧ e.H data ≠ h then
              .error (.chunk "Chunk integrity check failed")
            else .ok data

/-- `ChunkStore::load_chunk_uncached`, with an explicit recursion budget
for the delta-base recursion. -/
def loadChunkUncached (e : Env) (fs : List (Bytes × Bytes)) :
    Nat → Bytes → Except BlazeError Bytes
  | 0, _ => .error (.chunk "delta recursion limit")
  | fuel + 1, h => loadStep e fs (loadChunkUncached e fs fuel) h

/-- `ChunkStore::load_chunk`: byte-cache hit first, else uncached load
plus cache fill. -/
def loadChunk (e : Env) (fuel : Nat) (s : StoreState) (h : Bytes) :
    Except BlazeError Bytes × StoreState :=
  match lookupA s.chunkCache h with
  | some data => (.ok data, s)
  | none =>
      match loadChunkUncached e s.fs fuel h with
      | .error er => (.error er, s)
      | .ok data => (.ok data, maybeCacheChunk s h data)

/-- Collect a list of fallible results (`Result<Vec<_>>::collect`). -/
def collectE {α β : Type} (f : α → Except BlazeError β) :
    List α → Except BlazeError (List β)
  | [] => .ok []
  | a :: rest =>
      match f a with
      | .error er => .error er
      | .ok b =>
          match collectE f rest with
          | .error er => .error er
          | .ok bs => .ok (b :: bs)

/-- `ChunkStore::load_chunks`: uncached loads for all digests, then a
cache fill for every loaded chunk (note: without a cache-hit check). -/
def loadChunks (e : Env) (fuel : Nat) (s : StoreState) (hashes : List Bytes) :
    Except BlazeError (List Bytes) × StoreState :=
  match collectE (loadChunkUncached e s.fs fuel) hashes with
  | .error er => (.error er, s)
  | .ok datas =>
      (.ok datas,
        (hashes.zip datas).foldl (fun st p => maybeCacheChunk st p.1 p.2) s)

/-- `unique_chunks` of `store_chunks`: dedupe by hash, first occurrence
wins (`HashMap` insert-if-absent). -/
def dedupeByHash : List Bytes → List FileChunk → List FileChunk
  | _, [] => []
  | seen, ch :: rest =>
      if ch.hash ∈ seen then dedupeByHash seen rest
      else ch :: dedupeByHash (ch.hash :: seen) rest

/-- Filter of `store_chunks` keeping chunks whose digest is not yet
stored; `chunk_exists` updates the caches as it goes. -/
def filterNew (s : StoreState) : List FileChunk → List FileChunk × StoreState
  | [] => ([], s)
  | ch :: rest =>
      let e := chunkExists s ch.hash
      let r := filterNew e.2 rest
      (if e.1 then r.1 else ch :: r.1, r.2)

/-- First loop of `find_similar_chunk`: the `delta_cache[chunk_hash]`
candidates, first one that `chunk_exists` wins. -/
def findExisting (s : StoreState) : List Bytes → Option Bytes × StoreState
  | [] => (none, s)
  | h :: rest =>
      let e := chunkExists s h
      if e.1 then (some h, e.2) else findExisting e.2 rest

/-- Second loop of `find_similar_chunk`: scan the delta-cache keys for a
loadable chunk within the 10% size-tolerance band whose similarity score
passes the 0.7 threshold (`simOk`). -/
def findBySize (e : Env) (fuel : Nat) (fs : List (Bytes × Bytes))
    (chunkHash data : Bytes) : List (Bytes × List Bytes) → Option Bytes
  | [] => none
  | (existingHash, _) :: rest =>
      if existingHash = chunkHash then
        findBySize e fuel fs chunkHash data rest
      else
        match loadChunkUncached e fs fuel existingHash with
        | .error _ => findBySize e fuel fs chunkHash data rest
        | .ok existingData =>
            let target := data.length
            let sizeDiff :=
              if existingData.length > target then existingData.length - target
              else target - existingData.length
            if sizeDiff ≤ target / 10 ∧ e.simOk existingData data then
              some existingHash
            else findBySize e fuel fs chunkHash data rest

/-- `ChunkStore::find_similar_chunk`. -/
def findSimilarChunk (e : Env) (fuel : Nat) (s : StoreState)
    (chunkHash data : Bytes) : Option Bytes × StoreState :=
  let r := findExisting s ((lookupA s.deltaCache chunkHash).getD [])
  match r.1 with
  | some h => (some h, r.2)
  | none => (findBySize e fuel r.2.fs chunkHash data s.deltaCache, r.2)

/-- The per-chunk compression closure of `store_chunks`: attempt the
type-3 delta encoding for chunks over 1 KiB, fall back to
`compress_chunk_data`.  Returns `(hash, record, base?)`. -/
def compressOne (e : Env) (fuel : Nat) (s : StoreState) (ch : FileChunk) :
    (Bytes × Bytes × Option Bytes) × StoreState :=
  if ch.data.length > 1024 then
    let r := findSimilarChunk e fuel s ch.hash ch.data
    match r.1 with
    | some baseHash =>
        (match loadChunkUncached e r.2.fs fuel baseHash with
         | .ok baseData =>
             let delta := createDelta baseData ch.data
             if delta.length < ch.data.length * 8 / 10 then
               let compressedDelta := compressChunkData e.codec delta
               ((ch.hash, deltaRecord baseHash compressedDelta, some baseHash),
                 r.2)
             else
               ((ch.hash, compressChunkData e.codec ch.data, none), r.2)
         | .error _ =>
             ((ch.hash, compressChunkData e.codec ch.data, none), r.2))
    | none => ((ch.hash, compressChunkData e.codec ch.data, none), r.2)
  else ((ch.hash, compressChunkData e.codec ch.data, none), s)

/-- Compression phase of `store_chunks` over all new chunks. -/
def compressPhase (e : Env) (fuel : Nat) (s : StoreState) :
    List FileChunk → List (Bytes × Bytes × Option Bytes) × StoreState
  | [] => ([], s)
  | ch :: rest =>
      let r := compressOne e fuel s ch
      let r2 := compressPhase e fuel r.2 rest
      (r.1 :: r2.1, r2.2)

/-- `delta_cache.entry(base).or_default().push(hash)`. -/
def pushDeltaCache (dc : List (Bytes × List Bytes)) (base h : Bytes) :
    List (Bytes × List Bytes) :=
  insertA dc base ((lookupA dc base).getD [] ++ [h])

/-- Write phase of `store_chunks`: atomic write of every record, delta
cache update for type-3 records. -/
def writePhase (s : StoreState) :
    List (Bytes × Bytes × Option Bytes) → StoreState
  | [] => s
  | (h, record, baseOpt) :: rest =>
      let s1 := { s with fs := insertA s.fs h record }
      let s2 :=
        match baseOpt with
        | some baseHash => { s1 with deltaCache := pushDeltaCache s1.deltaCache baseHash h }
        | none => s1
      writePhase s2 rest

/-- Final cache-update loop of `store_chunks` over the new chunks. -/
def markAllStored (s : StoreState) : List FileChunk → StoreState
  | [] => s
  | ch :: rest => markAllStored (markStored s ch.hash ch.data) rest

/-- `ChunkStore::store_chunks`. -/
def storeChunks (e : Env) (fuel : Nat) (s : StoreState)
    (chunks : List FileChunk) : StoreState × Except BlazeError (List Bytes) :=
  if chunks = [] then (s, .ok [])
  else
    let uniq := dedupeByHash [] chunks
    let fn := filterNew s uniq
    if fn.1 = [] then (fn.2, .ok (chunks.map (·.hash)))
    else
      let cp := compressPhase e fuel fn.2 fn.1
      let s3 := writePhase cp.2 cp.1
      let s4 := markAllStored s3 fn.1
      (s4, .ok (chunks.map (·.hash)))

/-- `ChunkStore::garbage_collect`: every file of the fan-out tree (full
digest of length ≥ 2) not in the active set is removed; the byte cache
and existence cache drop the removed digests, the negative cache gains
them.  Note the byte-cache removal does not adjust
`current_cache_size`. -/
def garbageCollect (s : StoreState) (active : List Bytes) :
    StoreState × Nat :=
  let removedKeys :=
    (s.fs.filter (fun kv => 2 ≤ kv.1.length ∧ kv.1 ∉ active)).map (·.1)
  ({ s with
      fs := s.fs.filter (fun kv => kv.1.length < 2 ∨ kv.1 ∈ active),
      chunkCache := s.chunkCache.filter (fun kv => kv.1 ∉ removedKeys),
      existenceCache := s.existenceCache.filter (fun h => h ∉ removedKeys),
      negativeCache := removedKeys ++ s.negativeCache },
    removedKeys.length)

/-- `ChunkStore::clear_cache`. -/
def clearCache (s : StoreState) : StoreState :=
  { s with chunkCache := [], currentCacheSize := 0, existenceCache := [],
           negativeCache := [], deltaCache := [] }

/-! ## File records and chunking (`files.rs`, `core.rs`) -/

/-- `files.rs` `FileRecord`.  Paths are byte strings (Rust `String`s are
UTF-8 byte sequences; all orderings and hashes below act on the
bytes). -/
structure FileRecord where
  path : Bytes
  chunks : List Bytes
  size : Nat
  mtime : Nat
  permissions : Nat
  isExecutable : Bool
  deriving DecidableEq, Repr

/-- Fixed-size splitting of a byte sequence at `chunkSize` offsets
(the common core of both chunkers; `read` fills the whole buffer except
at end of file). -/
def splitFixed (chunkSize : Nat) (bytes : Bytes) : List Bytes :=
  if h : bytes = [] ∨ chunkSize = 0 then []
  else bytes.take chunkSize :: splitFixed chunkSize (bytes.drop chunkSize)
  termination_by bytes.length
  decreasing_by
    rcases bytes with _ | ⟨b, rest⟩
    · simp at h
    · simp only [List.drop, List.length_cons, List.length_drop]
      omega

/-- `files.rs` `chunk_regular_file`: read `CHUNK_SIZE` at a time, push
each block read; an empty file produces no chunks. -/
def chunkRegularFile (H : Bytes → Bytes) (bytes : Bytes) : List FileChunk :=
  (splitFixed CHUNK_SIZE bytes).map (mkFileChunk H)

/-- `core.rs` `Blaze::simple_fixed_chunking`: same loop, but an empty
result is replaced by a single empty chunk. -/
def simpleFixedChunking (H : Bytes → Bytes) (bytes : Bytes) : List FileChunk :=
  let chunks := (splitFixed CHUNK_SIZE bytes).map (mkFileChunk H)
  if chunks = [] then [mkFileChunk H []] else chunks

/-! ## Change detection (`files.rs` `changes`) -/

/-- `files.rs` `FileChangeType` (the `Renamed` variant carries the old
path). -/
inductive FileChangeType where
  | added : FileChangeType
  | modified : FileChangeType
  | deleted : FileChangeType
  | renamed : Bytes → FileChangeType
  deriving DecidableEq, Repr

/-- `files.rs` `FileChange`. -/
structure FileChange where
  path : Bytes
  changeType : FileChangeType
  newRecord : Option FileRecord
  oldRecord : Option FileRecord
  deriving DecidableEq, Repr

/-- `FileChange::added`. -/
def FileChange.mkAdded (record : FileRecord) : FileChange :=
  { path := record.path, changeType := .added, newRecord := some record,
    oldRecord := none }

/-- `FileChange::modified`. -/
def FileChange.mkModified (oldRecord newRecord : FileRecord) : FileChange :=
  { path := newRecord.path, changeType := .modified,
    newRecord := some newRecord, oldRecord := some oldRecord }

/-- `FileChange::deleted`. -/
def FileChange.mkDeleted (record : FileRecord) : FileChange :=
  { path := record.path, changeType := .deleted, newRecord := none,
    oldRecord := some record }

/-- First loop of `changes::detect_changes` (additions and
modifications, from the iteration over `new_records`). -/
def detectChangesNew (oldRecords newRecords : List (Bytes × FileRecord)) :
    List FileChange :=
  (newRecords.map (fun p =>
      match lookupA oldRecords p.1 with
      | some oldRecord =>
          if oldRecord ≠ p.2 then [FileChange.mkModified oldRecord p.2] else []
      | none => [FileChange.mkAdded p.2])).flatten

/-- Second loop of `changes::detect_changes` (deletions, from the
iteration over `old_records`). -/
def detectChangesOld (oldRecords newRecords : List (Bytes × FileRecord)) :
    List FileChange :=
  (oldRecords.map (fun p =>
      if (lookupA newRecords p.1).isSome then []
      else [FileChange.mkDeleted p.2])).flatten

/-- `changes::detect_changes` over two `{path → record}` maps (modelled
as association lists; `HashMap` keys are unique). -/
def detectChanges (oldRecords newRecords : List (Bytes × FileRecord)) :
    List FileChange :=
  detectChangesNew oldRecords newRecords ++
    detectChangesOld oldRecords newRecords

/-- In a persisted `{path → record}` map every record is keyed by its
own path. -/
def KeysOk (l : List (Bytes × FileRecord)) : Prop :=
  ∀ p ∈ l, p.2.path = p.1

/-- "Is an `Added` change for path `p`". -/
def isAddedAt (p : Bytes) (ch : FileChange) : Bool :=
  ch.path = p ∧ ch.changeType = .added

/-- "Is a `Modified` change for path `p`". -/
def isModifiedAt (p : Bytes) (ch : FileChange) : Bool :=
  ch.path = p ∧ ch.changeType = .modified

/-- "Is a `Deleted` change for path `p`". -/
def isDeletedAt (p : Bytes) (ch : FileChange) : Bool :=
  ch.path = p ∧ ch.changeType = .deleted

/-- "Is a `Renamed` change". -/
def isRenamedChange (ch : FileChange) : Bool :=
  match ch.changeType with
  | .renamed _ => true
  | _ => false

/-! ## Canonical tree hashing (`core.rs`) -/

/-- Byte-lexicographic order on byte strings (Rust `str` ordering on the
UTF-8 bytes). -/
def lexLe : Bytes → Bytes → Bool
  | [], _ => true
  | _ :: _, [] => false
  | a :: as', b :: bs' =>
      if a < b then true else if b < a then false else lexLe as' bs'

/-- `sorted_files`: entries sorted by path. -/
def sortByPath (files : List (Bytes × FileRecord)) :
    List (Bytes × FileRecord) :=
  files.mergeSort (fun a b => lexLe a.1 b.1)

/-- The comma-joined chunk-digest bytes fed to the hasher for one
record. -/
def joinChunks : List Bytes → Bytes
  | [] => []
  | [c] => c
  | c :: rest => c ++ 44 :: joinChunks rest

/-- The hasher updates for one sorted entry:
`path`, `":"` (58), joined digests, `"\n"` (10). -/
def entryBytes (p : Bytes × FileRecord) : Bytes :=
  p.1 ++ 58 :: (joinChunks p.2.chunks ++ [10])

/-- `Blaze::create_tree_hash`: one hasher over all sorted entries. -/
def createTreeHash (H : Bytes → Bytes)
    (files : List (Bytes × FileRecord)) : Bytes :=
  H (((sortByPath files).map entryBytes).flatten)

/-- `par_chunks(100)`: partition into consecutive groups of 100. -/
def groupsOf {α : Type} (n : Nat) (l : List α) : List (List α) :=
  if h : n = 0 then []
  else
    match l with
    | [] => []
    | a :: rest => (a :: rest).take n :: groupsOf n ((a :: rest).drop n)
  termination_by l.length
  decreasing_by
    simp only [List.length_drop, List.length_cons]
    omega

/-- `Blaze::create_tree_hash_parallel`: hash fixed groups of 100 sorted
entries, then hash the concatenation of the group digests. -/
def createTreeHashParallel (H : Bytes → Bytes)
    (files : List (Bytes × FileRecord)) : Bytes :=
  let groups := groupsOf 100 (sortByPath files)
  H ((groups.map (fun g => H ((g.map entryBytes).flatten))).flatten)

/-! ## Metadata store and `Blaze::commit` (`database.rs`, `core.rs`) -/

/-- `database.rs` `CommitRecord`. -/
structure CommitRecord where
  hash : Bytes
  parent : Option Bytes
  message : Bytes
  timestamp : Nat
  treeHash : Bytes
  files : List (Bytes × FileRecord)
  deriving DecidableEq, Repr

/-- Decimal digits of `n` (`to_string` of an unsigned integer). -/
def natToBytes (n : Nat) : Bytes :=
  if h : n < 10 then [48 + n]
  else natToBytes (n / 10) ++ [48 + n % 10]
  termination_by n
  decreasing_by exact Nat.div_lt_self (by omega) (by norm_num)

/-- ASCII whitespace trim of a byte string (`str::trim` on the byte
level). -/
def bytesTrim (l : Bytes) : Bytes :=
  let ws : Nat → Bool := fun b => b = 32 ∨ b = 9 ∨ b = 10 ∨ b = 13
  (l.dropWhile ws).reverse.dropWhile ws |>.reverse

/-- The byte stream fed to the commit hasher in `Blaze::commit`:
`"parent: "`, parent digest, `"\nmessage: "`, trimmed message,
`"\ntimestamp: "`, `"\nfiles: "`, `"\ntree: "` with the respective
values. -/
def commitHashStream (parent : Option Bytes) (message : Bytes)
    (timestamp fileCount : Nat) (treeHash : Bytes) : Bytes :=
  [112, 97, 114, 101, 110, 116, 58, 32] ++ (parent.getD []) ++
  [10, 109, 101, 115, 115, 97, 103, 101, 58, 32] ++ bytesTrim message ++
  [10, 116, 105, 109, 101, 115, 116, 97, 109, 112, 58, 32] ++
    natToBytes timestamp ++
  [10, 102, 105, 108, 101, 115, 58, 32] ++ natToBytes fileCount ++
  [10, 116, 114, 101, 101, 58, 32] ++ treeHash

/-- The commit record built by `Blaze::commit` from the staged files:
tree hash by the sequential scheme for ≤ 100 files, by the parallel
scheme otherwise; commit digest over the canonical stream. -/
def buildCommitRecord (H : Bytes → Bytes)
    (stagedFiles : List (Bytes × FileRecord)) (parent : Option Bytes)
    (message : Bytes) (timestamp : Nat) : CommitRecord :=
  let treeHash :=
    if stagedFiles.length ≤ 100 then createTreeHash H stagedFiles
    else createTreeHashParallel H stagedFiles
  { hash := H (commitHashStream parent message timestamp
        stagedFiles.length treeHash),
    parent := parent,
    message := bytesTrim message,
    timestamp := timestamp,
    treeHash := treeHash,
    files := stagedFiles }

/-- Metadata-store state: the `commits` and `refs` tables. -/
structure DbState where
  commits : List (Bytes × CommitRecord)
  refs : List (String × Option Bytes)
  deriving DecidableEq, Repr

/-- A SQLite transaction issued by the engine: each of these is one
atomic unit (`database.rs` opens a fresh auto-commit connection per
call). -/
inductive DbTxn where
  | storeCommitTxn : CommitRecord → DbTxn
  | storeRefTxn : String → Option Bytes → DbTxn
  deriving DecidableEq, Repr

/-- Apply one transaction.  `store_commit` is a plain `INSERT` (fails on
a duplicate digest); `store_ref` is `INSERT OR REPLACE`. -/
def applyTxn (db : DbState) : DbTxn → Option DbState
  | .storeCommitTxn record =>
      if (lookupA db.commits record.hash).isSome then none
      else some { db with commits := insertA db.commits record.hash record }
  | .storeRefTxn name commitHash =>
      some { db with refs := insertA db.refs name commitHash }

/-- Apply a list of transactions in order, stopping at the first
failure. -/
def applyTxns (db : DbState) : List DbTxn → Option DbState
  | [] => some db
  | t :: rest =>
      match applyTxn db t with
      | none => none
      | some db' => applyTxns db' rest

/-- The sequence of metadata-store transactions issued by the tail of
`Blaze::commit`: `self.database.store_commit(..)` followed by
`self.database.store_ref("HEAD", ..)` — two separate connections, hence
two separate transactions. -/
def commitTxns (record : CommitRecord) : List DbTxn :=
  [.storeCommitTxn record, .storeRefTxn "HEAD" (some record.hash)]

/-- `Blaze::get_active_chunk_hashes`: all chunk digests of staging and
of every commit's manifest (the `HashSet` union modelled as a
deduplicated list). -/
def getActiveChunkHashes (stagedFiles : List (Bytes × FileRecord))
    (commits : List CommitRecord) : List Bytes :=
  ((stagedFiles.map (fun p => p.2.chunks)).flatten ++
    ((commits.map (fun c => (c.files.map (fun p => p.2.chunks)).flatten))).flatten).dedup

/-! ## Repository lock discipline (`core.rs`) -/

/-- Observable events of a repository operation. -/
inductive RepoEvent where
  | lockAcquire : RepoEvent
  | lockRelease : RepoEvent
  | storeChunksEv : RepoEvent
  | storeFilesEv : RepoEvent
  | dbWriteEv : RepoEvent
  deriving DecidableEq, Repr

/-- Events of `add_files` (and of the pattern path): nothing on an empty
resolution or a dry run, otherwise one chunk-store batch and one staging
upsert batch. -/
def addFilesEvents (resolvedNonempty dryRun : Bool) : List RepoEvent :=
  if resolvedNonempty = false then []
  else if dryRun then []
  else [.storeChunksEv, .storeFilesEv]

/-- Events of `add_files_nano_fast`. -/
def nanoFastEvents (resolvedNonempty : Bool) : List RepoEvent :=
  if resolvedNonempty then [.storeChunksEv, .storeFilesEv] else []

/-- Event trace of `Blaze::add`.  `use_lock = files.len() > 5 || all`;
the lock guard is dropped on scope exit.  `nArgs` is the number of
explicit path arguments, `resolvedNonempty` whether any file resolves. -/
def addTrace (nArgs : Nat) (all dryRun resolvedNonempty : Bool) :
    List RepoEvent :=
  let useLock : Bool := nArgs > 5 || all
  let body :=
    if all then addFilesEvents resolvedNonempty dryRun
    else if nArgs = 0 then addFilesEvents resolvedNonempty dryRun
    else if nArgs ≤ 10 ∧ all = false ∧ dryRun = false then
      nanoFastEvents resolvedNonempty
    else addFilesEvents resolvedNonempty dryRun
  (if useLock then [RepoEvent.lockAcquire] else []) ++ body ++
    (if useLock then [RepoEvent.lockRelease] else [])

/-- Event trace of `Blaze::commit`: the lock is always acquired first
and released on scope exit, including the empty-staging error path. -/
def commitTrace (hasStagedOrAllowEmpty : Bool) : List RepoEvent :=
  [RepoEvent.lockAcquire] ++
    (if hasStagedOrAllowEmpty then [RepoEvent.dbWriteEv, RepoEvent.dbWriteEv]
     else []) ++
  [RepoEvent.lockRelease]

/-- Event trace of `Blaze::checkout`: lock, then (when clean or forced
and the commit exists) the restore writes and the `HEAD` update. -/
def checkoutTrace (proceeds : Bool) : List RepoEvent :=
  [RepoEvent.lockAcquire] ++
    (if proceeds then [RepoEvent.storeFilesEv, RepoEvent.dbWriteEv] else []) ++
  [RepoEvent.lockRelease]

/-- Does every store/db-write event of the trace happen while the lock
is held? -/
def storesLocked : Bool → List RepoEvent → Bool
  | _, [] => true
  | _, .lockAcquire :: rest => storesLocked true rest
  | _, .lockRelease :: rest => storesLocked false rest
  | held, .storeChunksEv :: rest => held && storesLocked held rest
  | held, .storeFilesEv :: rest => held && storesLocked held rest
  | held, .dbWriteEv :: rest => held && storesLocked held rest

/-- Does the trace contain any mutation event? -/
def hasStoreEvent (t : List RepoEvent) : Bool :=
  t.any (fun ev =>
    ev = .storeChunksEv ∨ ev = .storeFilesEv ∨ ev = .dbWriteEv)

/-! ## Checkout / restore (`core.rs`) -/

/-- A working-tree file as `restore_files` leaves it. -/
structure WorkFile where
  data : Bytes
  permissions : Nat
  mtime : Nat
  deriving DecidableEq, Repr

/-- The per-record chunk loads of `restore_files`:
`record.chunks.iter().map(|hash| self.chunk_store.load_chunk(hash))
.collect()`. -/
def loadChunksSeq (e : Env) (fuel : Nat) (s : StoreState) :
    List Bytes → Except BlazeError (List Bytes × StoreState)
  | [] => .ok ([], s)
  | h :: rest =>
      match loadChunk e fuel s h with
      | (.error er, _) => .error er
      | (.ok d, s') =>
          match loadChunksSeq e fuel s' rest with
          | .error er => .error er
          | .ok (ds, s'') => .ok (d :: ds, s'')

/-- One iteration of `Blaze::restore_files`: load every chunk of the
record through the chunk store, concatenate, write the file (the write
stamps the current time `now`), then `set_permissions` with the recorded
mode.  No call restores the recorded mtime. -/
def restoreOne (e : Env) (fuel : Nat) (now : Nat)
    (acc : StoreState × List (Bytes × WorkFile)) (record : FileRecord) :
    Except BlazeError (StoreState × List (Bytes × WorkFile)) :=
  match loadChunksSeq e fuel acc.1 record.chunks with
  | .error er => .error er
  | .ok (datas, s') =>
      .ok (s', insertA acc.2 record.path
        { data := datas.flatten, permissions := record.permissions,
          mtime := now })

/-- `Blaze::restore_files` over the manifest map of the target commit
(the `for record in files.values()` loop with `?` propagation). -/
def restoreFiles (e : Env) (fuel : Nat) (now : Nat) (s : StoreState)
    (wtree : List (Bytes × WorkFile)) :
    List (Bytes × FileRecord) →
      Except BlazeError (StoreState × List (Bytes × WorkFile))
  | [] => .ok (s, wtree)
  | q :: rest =>
      match restoreOne e fuel now (s, wtree) q.2 with
      | .error er => .error er
      | .ok (s₁, w₁) => restoreFiles e fuel now s₁ w₁ rest

/-- The state-changing tail of `Blaze::checkout` once the target commit
has been resolved: restore all files, then update `HEAD`. -/
def checkoutApply (e : Env) (fuel : Nat) (now : Nat) (s : StoreState)
    (wtree : List (Bytes × WorkFile)) (db : DbState)
    (commit : CommitRecord) :
    Except BlazeError (StoreState × List (Bytes × WorkFile) × DbState) :=
  match restoreFiles e fuel now s wtree commit.files with
  | .error er => .error er
  | .ok (s', wtree') =>
      .ok (s', wtree',
        { db with refs := insertA db.refs "HEAD" (some commit.hash) })

/-! ## Store invariants and reachability -/

/-- Every digest present on disk loads successfully (at some recursion
depth) to bytes that re-hash to the digest. -/
def GoodStore (e : Env) (fs : List (Bytes × Bytes)) : Prop :=
  ∀ h r, lookupA fs h = some r →
    ∃ n d, loadChunkUncached e fs n h = .ok d ∧ e.H d = h

/-- Every byte-cache entry re-hashes to its key. -/
def CacheOk (e : Env) (s : StoreState) : Prop :=
  ∀ kv ∈ s.chunkCache, e.H kv.2 = kv.1

/-- Every byte-cache entry is backed by a file. -/
def CacheInFs (s : StoreState) : Prop :=
  ∀ kv ∈ s.chunkCache, (lookupA s.fs kv.1).isSome

/-- The existence cache only names digests with a file. -/
def ExistOk (s : StoreState) : Prop :=
  ∀ h, h ∈ s.existenceCache → (lookupA s.fs h).isSome

/-- The negative cache only names digests without a file. -/
def NegOk (s : StoreState) : Prop :=
  ∀ h, h ∈ s.negativeCache → lookupA s.fs h = none

/-- All invariants assumed by the round-trip theorem, plus the library
contracts. -/
structure StoreOk (e : Env) (s : StoreState) : Prop where
  codecOk : CodecOk e.codec
  hashOk : HashOk e.H
  goodStore : GoodStore e s.fs
  cacheOk : CacheOk e s
  cacheInFs : CacheInFs s
  existOk : ExistOk s
  negOk : NegOk s

/-- A well-formed chunk batch: hashes computed by `FileChunk::new`, and
sizes within the 16 MiB zstd decompression cap of the reader. -/
def WfChunks (e : Env) (chunks : List FileChunk) : Prop :=
  ∀ ch ∈ chunks, ch.hash = e.H ch.data ∧ ch.data.length ≤ ZSTD_MAX

/-- No record on disk carries the delta tag. -/
def NoDelta (fs : List (Bytes × Bytes)) : Prop :=
  ∀ kv ∈ fs, kv.2.headD 0 ≠ 3

/-- Chunk-store states reachable through the public `ChunkStore`
interface as the engine uses it (`store_chunk`, `store_chunks`,
`load_chunk`, `load_chunks`, `garbage_collect`, `clear_cache`), plus
re-opening the store in a later process. -/
inductive Reach (e : Env) : StoreState → Prop where
  | init : Reach e initialStore
  | reopen {s} : Reach e s → Reach e (reopenStore s)
  | storeChunkStep {s} (ch : FileChunk) : Reach e s →
      Reach e (storeChunk e.codec s ch).1
  | storeChunksStep {s} (fuel : Nat) (chunks : List FileChunk) : Reach e s →
      Reach e (storeChunks e fuel s chunks).1
  | loadChunkStep {s} (fuel : Nat) (h : Bytes) : Reach e s →
      Reach e (loadChunk e fuel s h).2
  | loadChunksStep {s} (fuel : Nat) (hashes : List Bytes) : Reach e s →
      Reach e (loadChunks e fuel s hashes).2
  | gcStep {s} (active : List Bytes) : Reach e s →
      Reach e (garbageCollect s active).1
  | clearCacheStep {s} : Reach e s → Reach e (clearCache s)

/-- The byte-cache accounting invariant of claim C10:
`current_cache_size` equals the sum of the cached entry sizes, stays
within the budget, and no entry exceeds a quarter of the budget. -/
def CacheAcct (s : StoreState) : Prop :=
  s.currentCacheSize = (s.chunkCache.map (fun kv => kv.2.length)).sum ∧
  s.currentCacheSize ≤ s.maxCacheSize ∧
  ∀ kv ∈ s.chunkCache, kv.2.length ≤ s.maxCacheSize / 4

/-- States reachable without `garbage_collect` and `load_chunks` (the
two operations that break the accounting equation). -/
inductive ReachAcct (e : Env) : StoreState → Prop where
  | init : ReachAcct e initialStore
  | storeChunkStep {s} (ch : FileChunk) : ReachAcct e s →
      ReachAcct e (storeChunk e.codec s ch).1
  | storeChunksStep {s} (fuel : Nat) (chunks : List FileChunk) :
      ReachAcct e s → ReachAcct e (storeChunks e fuel s chunks).1
  | loadChunkStep {s} (fuel : Nat) (h : Bytes) : ReachAcct e s →
      ReachAcct e (loadChunk e fuel s h).2
  | clearCacheStep {s} : ReachAcct e s → ReachAcct e (clearCache s)

/-! ## Concrete instances used by witnesses and counterexamples -/

/-- A length-based stand-in hash exhibiting structural differences of
hashing schemes. -/
def hashLen (l : Bytes) : Bytes := [l.length]

/-- Witness environment: a debug-assertions build. -/
def envW : Env where
  codec := codecW
  H := hashW
  simOk := fun _ _ => false
  debug := true

/-- Witness environment: a release build (no debug assertions). -/
def envRelease : Env where
  codec := codecW
  H := hashW
  simOk := fun _ _ => false
  debug := false

/-- A sample one-chunk file record (path `"a"`, chunk digest `"b"`). -/
def recB : FileRecord where
  path := [97]
  chunks := [[98]]
  size := 1
  mtime := 0
  permissions := 420
  isExecutable := false

/-- A sample chunk holding the single byte `9`. -/
def chunkW : FileChunk := mkFileChunk hashW [9]

/-- The store after `store_chunk` of `chunkW` on a fresh store. -/
def storeW : StoreState := (storeChunk codecW initialStore chunkW).1

/-- A sample record whose single chunk is `chunkW`, with recorded
mtime 5. -/
def recW : FileRecord where
  path := [97]
  chunks := [hashW [9]]
  size := 1
  mtime := 5
  permissions := 420
  isExecutable := false

/-- A sample commit whose manifest holds exactly `recW`. -/
def commitW : CommitRecord where
  hash := [5]
  parent := none
  message := []
  timestamp := 0
  treeHash := []
  files := [([97], recW)]

/-! # Theorems -/

/-! ## Claim C5: fixed-size chunking -/

theorem splitFixed_eq_nil (cs : Nat) : splitFixed cs [] = [] := by
  rw [splitFixed]
  simp

theorem splitFixed_eq_cons (cs : Nat) (b : Bytes) (hb : b ≠ [])
    (hcs : cs ≠ 0) :
    splitFixed cs b = b.take cs :: splitFixed cs (b.drop cs) := by
  rw [splitFixed]
  simp [hb, hcs]

theorem splitFixed_flatten (cs : Nat) (b : Bytes) (hcs : cs ≠ 0) :
    (splitFixed cs b).flatten = b := by
  by_cases hb : b = []
  · subst hb
    simp [splitFixed_eq_nil]
  · rw [splitFixed_eq_cons cs b hb hcs]
    have ih : (splitFixed cs (b.drop cs)).flatten = b.drop cs :=
      splitFixed_flatten cs (b.drop cs) hcs
    simp [ih]
  termination_by b.length
  decreasing_by
    rcases b with _ | ⟨x, rest⟩
    · exact absurd rfl hb
    · simp only [List.length_drop, List.length_cons]
      omega

theorem splitFixed_length (cs : Nat) (b : Bytes) (hcs : 0 < cs) :
    (splitFixed cs b).length = (b.length + cs - 1) / cs := by
  by_cases hb : b = []
  · subst hb
    simp [splitFixed_eq_nil]
    rw [Nat.div_eq_of_lt (by omega)]
  · rw [splitFixed_eq_cons cs b hb (by omega)]
    have ih := splitFixed_length cs (b.drop cs) hcs
    have hlen : 0 < b.length := List.length_pos.mpr hb
    simp only [List.length_cons, ih, List.length_drop]
    by_cases hle : b.length ≤ cs
    · rw [show b.length - cs = 0 from by omega]
      rw [Nat.div_eq_of_lt (by omega)]
      rw [Nat.div_eq_sub_div hcs (by omega), Nat.div_eq_of_lt (by omega)]
    · rw [show b.length - cs + cs - 1 = b.length - 1 from by omega]
      rw [show b.length + cs - 1 = b.length - 1 + cs from by omega,
        Nat.add_div_right _ hcs]
  termination_by b.length
  decreasing_by
    rcases b with _ | ⟨x, rest⟩
    · exact absurd rfl hb
    · simp only [List.length_drop, List.length_cons]
      omega

theorem splitFixed_mem (cs : Nat) (b : Bytes) (hcs : 0 < cs) :
    ∀ ch ∈ splitFixed cs b, ch.length ≤ cs ∧ ch ≠ [] := by
  by_cases hb : b = []
  · subst hb
    simp [splitFixed_eq_nil]
  · rw [splitFixed_eq_cons cs b hb (by omega)]
    intro ch hch
    rcases List.mem_cons.mp hch with hch | hch
    · subst hch
      refine ⟨(List.length_take cs b).le.trans (min_le_left _ _), ?_⟩
      intro hnil
      rcases List.take_eq_nil_iff.mp hnil with h | h
      · omega
      · exact hb h
    · exact splitFixed_mem cs (b.drop cs) hcs ch hch
  termination_by b.length
  decreasing_by
    rcases b with _ | ⟨x, rest⟩
    · exact absurd rfl hb
    · simp only [List.length_drop, List.length_cons]
      omega

theorem splitFixed_getD (cs : Nat) (b : Bytes) (hcs : 0 < cs) :
    ∀ i, i + 1 < (splitFixed cs b).length →
      ((splitFixed cs b).getD i []).length = cs := by
  by_cases hb : b = []
  · subst hb
    simp [splitFixed_eq_nil]
  · rw [splitFixed_eq_cons cs b hb (by omega)]
    intro i hi
    match i with
    | 0 =>
        simp only [List.getD_cons_zero]
        simp only [List.length_cons] at hi
        have hrest : splitFixed cs (b.drop cs) ≠ [] := by
          intro hcon
          rw [hcon] at hi
          simp at hi
        have hdrop : b.drop cs ≠ [] := by
          intro hcon
          rw [hcon, splitFixed_eq_nil] at hrest
          exact hrest rfl
        have : cs < b.length := by
          by_contra hle
          exact hdrop (List.drop_eq_nil_of_le (by omega))
        simp [List.length_take]
        omega
    | i + 1 =>
        simp only [List.getD_cons_succ]
        simp only [List.length_cons] at hi
        exact splitFixed_getD cs (b.drop cs) hcs i (by omega)
  termination_by b.length
  decreasing_by
    rcases b with _ | ⟨x, rest⟩
    · exact absurd rfl hb
    · simp only [List.length_drop, List.length_cons]
      omega

theorem chunkRegularFile_data (H : Bytes → Bytes) (bytes : Bytes) :
    (chunkRegularFile H bytes).map (fun ch => ch.data) =
      splitFixed CHUNK_SIZE bytes := by
  simp only [chunkRegularFile, List.map_map]
  have : ((fun ch => FileChunk.data ch) ∘ mkFileChunk H) = id := by
    funext d
    rfl
  rw [this, List.map_id]

/-- C5 (corrected): for a nonempty file of `n` bytes both chunkers agree
and yield `⌈n / CHUNK_SIZE⌉` chunks in byte order, each of exactly
`CHUNK_SIZE` bytes except a possibly short final chunk, and their
concatenation is the file; a file of exactly `CHUNK_SIZE` bytes gives
one chunk and of `CHUNK_SIZE + 1` two.  For the empty file,
`chunk_regular_file` yields **no** chunks while `simple_fixed_chunking`
yields a single empty chunk (so the claimed `⌈n / CHUNK_SIZE⌉` count and
the claimed single-empty-chunk behaviour each fail on one of the two
chunkers at `n = 0`). -/
theorem c5_fixed_chunking (H : Bytes → Bytes) (bytes : Bytes) :
    (((chunkRegularFile H bytes).map (fun ch => ch.data)).flatten = bytes) ∧
    (bytes ≠ [] →
      (chunkRegularFile H bytes).length =
        (bytes.length + CHUNK_SIZE - 1) / CHUNK_SIZE ∧
      simpleFixedChunking H bytes = chunkRegularFile H bytes) ∧
    (∀ i, i + 1 < (chunkRegularFile H bytes).length →
      (((chunkRegularFile H bytes).map (fun ch => ch.data)).getD i []).length =
        CHUNK_SIZE) ∧
    (∀ ch ∈ chunkRegularFile H bytes,
      ch.data.length ≤ CHUNK_SIZE ∧ ch.hash = H ch.data) ∧
    (bytes = [] → chunkRegularFile H bytes = [] ∧
      simpleFixedChunking H bytes = [mkFileChunk H []]) ∧
    (bytes.length = CHUNK_SIZE → (chunkRegularFile H bytes).length = 1) ∧
    (bytes.length = CHUNK_SIZE + 1 →
      (chunkRegularFile H bytes).length = 2) ∧
    (((simpleFixedChunking H bytes).map (fun ch => ch.data)).flatten =
      bytes) := by
  have hcs : 0 < CHUNK_SIZE := by norm_num [CHUNK_SIZE]
  have hdata := chunkRegularFile_data H bytes
  have hflat : ((chunkRegularFile H bytes).map (fun ch => ch.data)).flatten =
      bytes := by
    rw [hdata]
    exact splitFixed_flatten _ _ (by omega)
  have hlen : (chunkRegularFile H bytes).length =
      (splitFixed CHUNK_SIZE bytes).length := by
    simp [chunkRegularFile]
  refine ⟨hflat, ?_, ?_, ?_, ?_, ?_, ?_, ?_⟩
  · intro hb
    constructor
    · rw [hlen, splitFixed_length _ _ hcs]
    · have : splitFixed CHUNK_SIZE bytes ≠ [] := by
        intro hcon
        have := splitFixed_flatten CHUNK_SIZE bytes (by omega)
        rw [hcon] at this
        exact hb this.symm
      simp [simpleFixedChunking, chunkRegularFile, this]
  · intro i hi
    rw [hdata]
    rw [hlen] at hi
    exact splitFixed_getD _ _ hcs i hi
  · intro ch hch
    simp only [chunkRegularFile, List.mem_map] at hch
    obtain ⟨blk, hblk, rfl⟩ := hch
    have := splitFixed_mem _ _ hcs blk hblk
    exact ⟨this.1, rfl⟩
  · intro hb
    subst hb
    constructor
    · simp [chunkRegularFile, splitFixed_eq_nil]
    · simp [simpleFixedChunking, splitFixed_eq_nil]
  · intro hb
    rw [hlen, splitFixed_length _ _ hcs, hb]
    rw [show CHUNK_SIZE + CHUNK_SIZE - 1 = (CHUNK_SIZE - 1) + 1 * CHUNK_SIZE
      from by omega, Nat.add_mul_div_right _ _ hcs,
      Nat.div_eq_of_lt (by omega)]
  · intro hb
    rw [hlen, splitFixed_length _ _ hcs, hb]
    rw [show CHUNK_SIZE + 1 + CHUNK_SIZE - 1 = 0 + 2 * CHUNK_SIZE
      from by omega, Nat.add_mul_div_right _ _ hcs,
      Nat.div_eq_of_lt (by omega)]
  · by_cases hb : bytes = []
    · subst hb
      simp [simpleFixedChunking, splitFixed_eq_nil, mkFileChunk]
    · have : splitFixed CHUNK_SIZE bytes ≠ [] := by
        intro hcon
        have := splitFixed_flatten CHUNK_SIZE bytes (by omega)
        rw [hcon] at this
        exact hb this.symm
      have heq : simpleFixedChunking H bytes = chunkRegularFile H bytes := by
        simp [simpleFixedChunking, chunkRegularFile, this]
      rw [heq]
      exact hflat

/-- Witness for C5 at the concrete three-byte file `[1, 2, 3]`. -/
theorem c5_fixed_chunking_witness :
    (chunkRegularFile hashW [1, 2, 3]).length =
      (([1, 2, 3] : Bytes).length + CHUNK_SIZE - 1) / CHUNK_SIZE ∧
    simpleFixedChunking hashW [1, 2, 3] = chunkRegularFile hashW [1, 2, 3] :=
  (c5_fixed_chunking hashW [1, 2, 3]).2.1 (by decide)

/-- Counterexample to C5 as stated: on the empty file,
`chunk_regular_file` yields no chunk at all (not a single empty chunk),
and `simple_fixed_chunking` yields one chunk where the claimed
`⌈0 / CHUNK_SIZE⌉ = 0` formula demands none. -/
theorem c5_counterexample :
    chunkRegularFile hashW [] = [] ∧
    (simpleFixedChunking hashW []).length ≠
      (([] : Bytes).length + CHUNK_SIZE - 1) / CHUNK_SIZE := by
  constructor
  · simp [chunkRegularFile, splitFixed_eq_nil]
  · simp [simpleFixedChunking, splitFixed_eq_nil]
    rw [Nat.div_eq_of_lt (by norm_num [CHUNK_SIZE])]
    norm_num

/-! ## Claim C4: tree-hash schemes -/

theorem groupsOf_nil {α : Type} (n : Nat) : groupsOf n ([] : List α) = [] := by
  rw [groupsOf]
  by_cases h : n = 0 <;> simp [h]

theorem groupsOf_single_group {α : Type} (n : Nat) (l : List α)
    (hl : l ≠ []) (hlen : l.length ≤ n) : groupsOf n l = [l] := by
  rcases l with _ | ⟨a, rest⟩
  · exact absurd rfl hl
  · rw [groupsOf]
    have hn : n ≠ 0 := by
      intro h
      subst h
      simp at hlen
    simp only [hn, dite_false]
    rw [List.take_of_length_le hlen, List.drop_eq_nil_of_le hlen, groupsOf_nil]

/-- C4 (corrected): the sequential and the group-partitioned parallel
tree-hash schemes agree on the empty manifest map, but on a nonempty
map of at most 100 entries the parallel scheme returns the digest of the
single group digest, `H (H stream)`, instead of the sequential
`H stream` — the two schemes do not produce the same value in
general. -/
theorem c4_tree_hash_schemes (H : Bytes → Bytes)
    (files : List (Bytes × FileRecord)) :
    (files = [] → createTreeHashParallel H files = createTreeHash H files) ∧
    (files ≠ [] → files.length ≤ 100 →
      createTreeHashParallel H files =
        H (H (((sortByPath files).map entryBytes).flatten))) := by
  constructor
  · intro hf
    subst hf
    simp [createTreeHashParallel, createTreeHash, sortByPath,
      List.mergeSort_nil, groupsOf_nil]
  · intro hf hlen
    have hsorted : sortByPath files ≠ [] := by
      intro hcon
      have := @List.length_mergeSort _ (fun a b => lexLe a.1 b.1) files
      rw [show files.mergeSort (fun a b => lexLe a.1 b.1) = sortByPath files
        from rfl, hcon] at this
      exact hf (List.length_eq_zero.mp this.symm)
    have hslen : (sortByPath files).length ≤ 100 := by
      have := @List.length_mergeSort _ (fun a b => lexLe a.1 b.1) files
      rw [show files.mergeSort (fun a b => lexLe a.1 b.1) = sortByPath files
        from rfl] at this
      omega
    simp only [createTreeHashParallel,
      groupsOf_single_group 100 (sortByPath files) hsorted hslen]
    simp

/-- Witness for C4: the single-entry manifest, where the parallel scheme
hashes the group digest once more. -/
theorem c4_tree_hash_schemes_witness :
    createTreeHashParallel hashW [([97], recB)] =
      hashW (hashW (((sortByPath [([97], recB)]).map entryBytes).flatten)) :=
  (c4_tree_hash_schemes hashW _).2 (by decide) (by decide)

/-- Counterexample to C4 as stated: with a one-entry manifest the two
schemes disagree (exhibited with the length hash standing in for
BLAKE3: the sequential digest is `[4]`, the parallel one `[1]`). -/
theorem c4_counterexample :
    createTreeHashParallel hashLen [([97], recB)] ≠
      createTreeHash hashLen [([97], recB)] := by
  have hsingle : sortByPath [(([97] : Bytes), recB)] = [([97], recB)] := by
    simp [sortByPath]
  have hgroups := groupsOf_single_group 100
      [(([97] : Bytes), recB)] (by decide) (by decide)
  simp only [createTreeHashParallel, createTreeHash, hsingle, hgroups]
  decide

/-! ## Claim C9: change detection -/

theorem lookupA_eq_none_of_not_mem {α β : Type} [DecidableEq α]
    {l : List (α × β)} {k : α} (h : k ∉ l.map Prod.fst) :
    lookupA l k = none := by
  induction l with
  | nil => rfl
  | cons q rest ih =>
      simp only [List.map_cons, List.mem_cons] at h
      push_neg at h
      simp only [lookupA]
      rw [if_neg (fun hc => h.1 hc.symm)]
      exact ih h.2


theorem detectChangesNew_counts (old : List (Bytes × FileRecord)) (p : Bytes) :
    ∀ (new : List (Bytes × FileRecord)), KeysOk new →
      (new.map Prod.fst).Nodup →
      (detectChangesNew old new).countP (isAddedAt p) =
        (if (lookupA new p).isSome ∧ lookupA old p = none then 1 else 0) ∧
      (detectChangesNew old new).countP (isModifiedAt p) =
        (match lookupA old p, lookupA new p with
         | some r, some r' => if r = r' then 0 else 1
         | _, _ => 0) ∧
      (detectChangesNew old new).countP (isDeletedAt p) = 0 ∧
      (detectChangesNew old new).countP isRenamedChange = 0 := by
  intro new
  induction new with
  | nil =>
      intro _ _
      refine ⟨by simp [detectChangesNew, lookupA], ?_,
        by simp [detectChangesNew], by simp [detectChangesNew]⟩
      cases h : lookupA old p <;> simp [detectChangesNew, lookupA]
  | cons q rest ih =>
      intro hk hnd
      have hkq : q.2.path = q.1 := hk q (List.mem_cons_self _ _)
      have hkrest : KeysOk rest := fun a ha => hk a (List.mem_cons_of_mem _ ha)
      simp only [List.map_cons, List.nodup_cons] at hnd
      obtain ⟨hqnot, hndrest⟩ := hnd
      obtain ⟨ihA, ihM, ihD, ihR⟩ := ih hkrest hndrest
      cases hold : lookupA old q.1 with
      | none =>
          have hsplit : detectChangesNew old (q :: rest) =
              FileChange.mkAdded q.2 :: detectChangesNew old rest := by
            simp [detectChangesNew, hold]
          rw [hsplit]
          by_cases hp : q.1 = p
          · subst hp
            have hlrest : lookupA rest q.1 = none :=
              lookupA_eq_none_of_not_mem hqnot
            rw [hlrest] at ihA ihM
            have hlnew : lookupA (q :: rest) q.1 = some q.2 := by
              simp [lookupA]
            refine ⟨?_, ?_, ?_, ?_⟩ <;>
              simp [List.countP_cons, ihA, ihM, ihD, ihR, hlnew, hold,
                isAddedAt, isModifiedAt, isDeletedAt, isRenamedChange,
                FileChange.mkAdded, hkq]
          · have hlnew : lookupA (q :: rest) p = lookupA rest p := by
              simp [lookupA, hp]
            refine ⟨?_, ?_, ?_, ?_⟩ <;>
              simp [List.countP_cons, ihA, ihM, ihD, ihR, hlnew,
                isAddedAt, isModifiedAt, isDeletedAt, isRenamedChange,
                FileChange.mkAdded, hkq, hp]
      | some r =>
          by_cases hr : r = q.2
          · have hsplit : detectChangesNew old (q :: rest) =
                detectChangesNew old rest := by
              simp [detectChangesNew, hold, hr]
            rw [hsplit]
            by_cases hp : q.1 = p
            · subst hp
              have hlrest : lookupA rest q.1 = none :=
                lookupA_eq_none_of_not_mem hqnot
              rw [hlrest] at ihA ihM
              have hlnew : lookupA (q :: rest) q.1 = some q.2 := by
                simp [lookupA]
              subst hr
              refine ⟨?_, ?_, ?_, ?_⟩ <;>
                simp [ihA, ihM, ihD, ihR, hlnew, hold]
            · have hlnew : lookupA (q :: rest) p = lookupA rest p := by
                simp [lookupA, hp]
              exact ⟨by rw [ihA, hlnew], by rw [ihM, hlnew], ihD, ihR⟩
          · have hsplit : detectChangesNew old (q :: rest) =
                FileChange.mkModified r q.2 :: detectChangesNew old rest := by
              simp [detectChangesNew, hold, hr]
            rw [hsplit]
            by_cases hp : q.1 = p
            · subst hp
              have hlrest : lookupA rest q.1 = none :=
                lookupA_eq_none_of_not_mem hqnot
              rw [hlrest] at ihA ihM
              have hlnew : lookupA (q :: rest) q.1 = some q.2 := by
                simp [lookupA]
              refine ⟨?_, ?_, ?_, ?_⟩ <;>
                simp [List.countP_cons, ihA, ihM, ihD, ihR, hlnew, hold, hr,
                  isAddedAt, isModifiedAt, isDeletedAt, isRenamedChange,
                  FileChange.mkModified, hkq]
            · have hlnew : lookupA (q :: rest) p = lookupA rest p := by
                simp [lookupA, hp]
              refine ⟨?_, ?_, ?_, ?_⟩ <;>
                simp [List.countP_cons, ihA, ihM, ihD, ihR, hlnew,
                  isAddedAt, isModifiedAt, isDeletedAt, isRenamedChange,
                  FileChange.mkModified, hkq, hp]

theorem detectChangesOld_counts (new : List (Bytes × FileRecord)) (p : Bytes) :
    ∀ (old : List (Bytes × FileRecord)), KeysOk old →
      (old.map Prod.fst).Nodup →
      (detectChangesOld old new).countP (isDeletedAt p) =
        (if (lookupA old p).isSome ∧ lookupA new p = none then 1 else 0) ∧
      (detectChangesOld old new).countP (isAddedAt p) = 0 ∧
      (detectChangesOld old new).countP (isModifiedAt p) = 0 ∧
      (detectChangesOld old new).countP isRenamedChange = 0 := by
  intro old
  induction old with
  | nil =>
      intro _ _
      exact ⟨by simp [detectChangesOld, lookupA], by simp [detectChangesOld],
        by simp [detectChangesOld], by simp [detectChangesOld]⟩
  | cons q rest ih =>
      intro hk hnd
      have hkq : q.2.path = q.1 := hk q (List.mem_cons_self _ _)
      have hkrest : KeysOk rest := fun a ha => hk a (List.mem_cons_of_mem _ ha)
      simp only [List.map_cons, List.nodup_cons] at hnd
      obtain ⟨hqnot, hndrest⟩ := hnd
      obtain ⟨ihD, ihA, ihM, ihR⟩ := ih hkrest hndrest
      cases hnew : lookupA new q.1 with
      | some r =>
          have hsplit : detectChangesOld (q :: rest) new =
              detectChangesOld rest new := by
            simp [detectChangesOld, hnew]
          rw [hsplit]
          by_cases hp : q.1 = p
          · subst hp
            have hlrest : lookupA rest q.1 = none :=
              lookupA_eq_none_of_not_mem hqnot
            rw [hlrest] at ihD
            have hlold : lookupA (q :: rest) q.1 = some q.2 := by
              simp [lookupA]
            refine ⟨?_, ihA, ihM, ihR⟩
            simp [ihD, hlold, hnew]
          · have hlold : lookupA (q :: rest) p = lookupA rest p := by
              simp [lookupA, hp]
            exact ⟨by rw [ihD, hlold], ihA, ihM, ihR⟩
      | none =>
          have hsplit : detectChangesOld (q :: rest) new =
              FileChange.mkDeleted q.2 :: detectChangesOld rest new := by
            simp [detectChangesOld, hnew]
          rw [hsplit]
          by_cases hp : q.1 = p
          · subst hp
            have hlrest : lookupA rest q.1 = none :=
              lookupA_eq_none_of_not_mem hqnot
            rw [hlrest] at ihD
            have hlold : lookupA (q :: rest) q.1 = some q.2 := by
              simp [lookupA]
            refine ⟨?_, ?_, ?_, ?_⟩ <;>
              simp [List.countP_cons, ihD, ihA, ihM, ihR, hlold, hnew,
                isAddedAt, isModifiedAt, isDeletedAt, isRenamedChange,
                FileChange.mkDeleted, hkq]
          · have hlold : lookupA (q :: rest) p = lookupA rest p := by
              simp [lookupA, hp]
            refine ⟨?_, ?_, ?_, ?_⟩ <;>
              simp [List.countP_cons, ihD, ihA, ihM, ihR, hlold,
                isAddedAt, isModifiedAt, isDeletedAt, isRenamedChange,
                FileChange.mkDeleted, hkq, hp]

theorem detectChanges_types (old new : List (Bytes × FileRecord)) :
    ∀ ch ∈ detectChanges old new, ch.changeType = .added ∨
      ch.changeType = .modified ∨ ch.changeType = .deleted := by
  intro ch hch
  simp only [detectChanges, List.mem_append] at hch
  rcases hch with hch | hch
  · simp only [detectChangesNew, List.mem_flatten, List.mem_map] at hch
    obtain ⟨l, ⟨q, _, hfq⟩, hchl⟩ := hch
    subst hfq
    cases hold : lookupA old q.1 with
    | none =>
        rw [hold] at hchl
        simp at hchl
        subst hchl
        left
        rfl
    | some r =>
        rw [hold] at hchl
        by_cases hr : r = q.2
        · simp [hr] at hchl
        · simp [hr] at hchl
          subst hchl
          right
          left
          rfl
  · simp only [detectChangesOld, List.mem_flatten, List.mem_map] at hch
    obtain ⟨l, ⟨q, _, hfq⟩, hchl⟩ := hch
    subst hfq
    by_cases hnew : (lookupA new q.1).isSome
    · rw [if_pos hnew] at hchl
      exact absurd hchl (List.not_mem_nil ch)
    · rw [if_neg hnew] at hchl
      simp only [List.mem_singleton] at hchl
      subst hchl
      right
      right
      rfl

theorem countP_path_split (p : Bytes) (l : List FileChange)
    (hl : ∀ ch ∈ l, ch.changeType = .added ∨ ch.changeType = .modified ∨
      ch.changeType = .deleted) :
    l.countP (fun ch => ch.path = p) =
      l.countP (isAddedAt p) + l.countP (isModifiedAt p) +
        l.countP (isDeletedAt p) := by
  induction l with
  | nil => simp
  | cons ch rest ih =>
      have hch := hl ch (List.mem_cons_self _ _)
      have hrest := fun c hc => hl c (List.mem_cons_of_mem _ hc)
      simp only [List.countP_cons]
      rw [ih hrest]
      rcases hch with h | h | h <;>
        by_cases hp : ch.path = p <;>
          simp [isAddedAt, isModifiedAt, isDeletedAt, h, hp] <;> omega

/-- C9 (confirmed): for maps with unique keys whose records are keyed by
their own path, `detect_changes` yields exactly one `Added` change per
path in new-but-not-old, exactly one `Deleted` change per path in
old-but-not-new, exactly one `Modified` change per path in both whose
records differ in any field, no change at all for equal records, no
`Renamed` change ever, and no other change for any path. -/
theorem c9_detect_changes (old new : List (Bytes × FileRecord))
    (hko : KeysOk old) (hkn : KeysOk new)
    (hno : (old.map Prod.fst).Nodup) (hnn : (new.map Prod.fst).Nodup) :
    (∀ p, (detectChanges old new).countP (isAddedAt p) =
      (if (lookupA new p).isSome ∧ lookupA old p = none then 1 else 0)) ∧
    (∀ p, (detectChanges old new).countP (isDeletedAt p) =
      (if (lookupA old p).isSome ∧ lookupA new p = none then 1 else 0)) ∧
    (∀ p, (detectChanges old new).countP (isModifiedAt p) =
      (match lookupA old p, lookupA new p with
       | some r, some r' => if r = r' then 0 else 1
       | _, _ => 0)) ∧
    (detectChanges old new).countP isRenamedChange = 0 ∧
    (∀ p, (detectChanges old new).countP (fun ch => ch.path = p) =
      (detectChanges old new).countP (isAddedAt p) +
      (detectChanges old new).countP (isModifiedAt p) +
      (detectChanges old new).countP (isDeletedAt p)) := by
  refine ⟨?_, ?_, ?_, ?_, ?_⟩
  · intro p
    obtain ⟨hA, _, _, _⟩ := detectChangesNew_counts old p new hkn hnn
    obtain ⟨_, hA2, _, _⟩ := detectChangesOld_counts new p old hko hno
    simp [detectChanges, List.countP_append, hA, hA2]
  · intro p
    obtain ⟨_, _, hD, _⟩ := detectChangesNew_counts old p new hkn hnn
    obtain ⟨hD2, _, _, _⟩ := detectChangesOld_counts new p old hko hno
    simp [detectChanges, List.countP_append, hD, hD2]
  · intro p
    obtain ⟨_, hM, _, _⟩ := detectChangesNew_counts old p new hkn hnn
    obtain ⟨_, _, hM2, _⟩ := detectChangesOld_counts new p old hko hno
    simp [detectChanges, List.countP_append, hM, hM2]
  · obtain ⟨_, _, _, hR⟩ := detectChangesNew_counts old [] new hkn hnn
    obtain ⟨_, _, _, hR2⟩ := detectChangesOld_counts new [] old hko hno
    simp [detectChanges, List.countP_append, hR, hR2]
  · intro p
    exact countP_path_split p _ (detectChanges_types old new)

/-- Witness for C9: one record in the old map, empty new map — exactly
one `Deleted` change. -/
theorem c9_detect_changes_witness :
    (detectChanges [([97], recB)] []).countP (isDeletedAt [97]) =
      (if (lookupA [([97], recB)] [97]).isSome ∧
          lookupA ([] : List (Bytes × FileRecord)) [97] = none
        then 1 else 0) :=
  (c9_detect_changes [([97], recB)] [] (by simp [KeysOk, recB])
    (by simp [KeysOk]) (by decide) (by decide)).2.1 [97]

/-! ## Claim C6: repository lock discipline -/

/-- C6 (corrected): `commit` and `checkout` acquire the exclusive
repository lock first and release it on scope exit (including their
error paths), but `Blaze::add` takes the lock only when more than five
explicit paths are given or `--all` is set: a trace of `add` has all its
chunk-store and staging writes under the lock exactly when `5 < nArgs`,
`all` holds, or no write happens at all. -/
theorem c6_lock_discipline :
    (∀ (nArgs : Nat) (all dryRun resolvedNonempty : Bool),
      storesLocked false (addTrace nArgs all dryRun resolvedNonempty) =
        (decide (5 < nArgs) || all ||
          !hasStoreEvent (addTrace nArgs all dryRun resolvedNonempty))) ∧
    (∀ (nArgs : Nat) (all dryRun resolvedNonempty : Bool),
      5 < nArgs ∨ all = true →
      (addTrace nArgs all dryRun resolvedNonempty).head? =
          some RepoEvent.lockAcquire ∧
        (addTrace nArgs all dryRun resolvedNonempty).getLast? =
          some RepoEvent.lockRelease) ∧
    (∀ canCommit : Bool, storesLocked false (commitTrace canCommit) = true ∧
      (commitTrace canCommit).head? = some RepoEvent.lockAcquire ∧
      (commitTrace canCommit).getLast? = some RepoEvent.lockRelease) ∧
    (∀ proceeds : Bool, storesLocked false (checkoutTrace proceeds) = true ∧
      (checkoutTrace proceeds).head? = some RepoEvent.lockAcquire ∧
      (checkoutTrace proceeds).getLast? = some RepoEvent.lockRelease) := by
  refine ⟨?_, ?_, ?_, ?_⟩
  · intro n all dry ne
    by_cases h5 : 5 < n <;> by_cases h0 : n = 0 <;> by_cases h10 : n ≤ 10 <;>
      first
      | (exfalso; omega)
      | (cases all <;> cases dry <;> cases ne <;>
          simp [addTrace, addFilesEvents, nanoFastEvents, storesLocked,
            hasStoreEvent, h5, h0, h10])
  · intro n all dry ne h
    by_cases h5 : 5 < n <;> by_cases h0 : n = 0 <;> by_cases h10 : n ≤ 10 <;>
      first
      | (exfalso; omega)
      | (rcases h with h | h <;> cases all <;> cases dry <;> cases ne <;>
          simp_all [addTrace, addFilesEvents, nanoFastEvents])
  · intro cc
    cases cc <;> simp [commitTrace, storesLocked]
  · intro pr
    cases pr <;> simp [checkoutTrace, storesLocked]

/-- Counterexample to C6 as stated: `add` with a single explicit path
(five or fewer) stores chunks and upserts staging entirely outside the
lock. -/
theorem c6_counterexample :
    storesLocked false (addTrace 1 false false true) = false ∧
      hasStoreEvent (addTrace 1 false false true) = true := by
  constructor <;> rfl

/-! ## Claim C2: integrity check on load -/

/-- C2 (corrected): in a build with `debug_assertions`, every successful
disk load recomputes the digest over the reconstructed bytes, so the
returned bytes always re-hash to the requested digest; in a release
build the check is compiled out (see the counterexample). -/
theorem c2_load_integrity (e : Env) (fs : List (Bytes × Bytes)) (n : Nat)
    (h d : Bytes) (hdbg : e.debug = true)
    (hload : loadChunkUncached e fs n h = .ok d) : e.H d = h := by
  match n with
  | 0 => simp [loadChunkUncached] at hload
  | n + 1 =>
      rw [show loadChunkUncached e fs (n + 1) h =
        loadStep e fs (loadChunkUncached e fs n) h from rfl] at hload
      simp only [loadStep] at hload
      cases hl : lookupA fs h with
      | none =>
          simp [hl] at hload
      | some fileData =>
          simp only [hl] at hload
          by_cases hempty : fileData = []
          · rw [if_pos hempty] at hload
            exact absurd hload (by simp)
          · rw [if_neg hempty] at hload
            cases hres : decodeRecord e.codec (loadChunkUncached e fs n)
                fileData with
            | error er =>
                simp [hres] at hload
            | ok data =>
                simp only [hres] at hload
                by_cases hH : e.H data = h
                · rw [if_neg (by simp [hH])] at hload
                  cases hload
                  exact hH
                · rw [if_pos ⟨hdbg, hH⟩] at hload
                  exact absurd hload (by simp)

/-- Witness for C2: a well-formed raw record loads in a debug build and
its bytes re-hash to the digest. -/
theorem c2_load_integrity_witness : envW.H [9] = hashW [9] :=
  c2_load_integrity envW [(hashW [9], [0, 9])] 1 (hashW [9]) [9] rfl
    (by rfl)

/-- Counterexample to C2 as stated: in a release build (no
`debug_assertions`) a corrupted raw chunk file for digest `"\x07\x07"`
loads successfully and returns bytes that do not re-hash to the
requested digest — no chunk error is raised. -/
theorem c2_counterexample :
    loadChunkUncached envRelease [([7, 7], [0, 9])] 1 [7, 7] = .ok [9] ∧
      envRelease.H [9] ≠ [7, 7] := by
  constructor
  · rfl
  · decide

/-! ## Association-list lemmas shared by several claims -/

theorem lookupA_insertA_self {α β : Type} [DecidableEq α]
    (l : List (α × β)) (k : α) (v : β) :
    lookupA (insertA l k v) k = some v := by
  induction l with
  | nil => simp [insertA, lookupA]
  | cons q rest ih =>
      by_cases hq : q.1 = k
      · simp [insertA, hq, lookupA]
      · simp only [insertA]
        rw [if_neg (by exact fun hc => hq (by rw [hc]))]
        simp only [lookupA]
        rw [if_neg hq]
        exact ih

theorem lookupA_insertA_ne {α β : Type} [DecidableEq α]
    (l : List (α × β)) (k k' : α) (v : β) (h : k' ≠ k) :
    lookupA (insertA l k v) k' = lookupA l k' := by
  induction l with
  | nil =>
      simp only [insertA, lookupA]
      rw [if_neg (fun hc => h hc.symm)]
  | cons q rest ih =>
      by_cases hq : q.1 = k
      · simp only [insertA, if_pos hq, lookupA]
        rw [if_neg (fun hc => h hc.symm), hq]
        rw [if_neg (fun hc => h hc.symm)]
      · simp only [insertA, if_neg hq, lookupA]
        by_cases hq' : q.1 = k'
        · rw [if_pos hq', if_pos hq']
        · rw [if_neg hq', if_neg hq']
          exact ih

/-! ## Claim C3: commit / HEAD atomicity -/

/-- C3 (code bug): the source comment in `Blaze::commit` announces
"Store commit and update HEAD in a single transaction", but
`store_commit` and `store_ref` each open their own connection and
auto-commit separately.  The transaction sequence has length two, and
after the first transaction alone the commit row is already visible
while `HEAD` still names the old commit — exactly the intermediate state
the claim rules out. -/
theorem c3_commit_not_atomic (db : DbState) (record : CommitRecord)
    (oldHead : Option Bytes)
    (hfresh : lookupA db.commits record.hash = none)
    (hhead : lookupA db.refs "HEAD" = some oldHead) :
    (commitTxns record).length = 2 ∧
    ∃ db1, applyTxns db ((commitTxns record).take 1) = some db1 ∧
      lookupA db1.commits record.hash = some record ∧
      lookupA db1.refs "HEAD" = some oldHead := by
  refine ⟨rfl, ?_⟩
  refine ⟨{ db with commits := insertA db.commits record.hash record },
    ?_, ?_, ?_⟩
  · simp [commitTxns, applyTxns, applyTxn, hfresh]
  · exact lookupA_insertA_self _ _ _
  · exact hhead

/-- Witness for C3 at a concrete database (one `HEAD` ref naming the old
commit `[1]`) and the commit record built from empty staging. -/
theorem c3_commit_not_atomic_witness :
    (commitTxns (buildCommitRecord hashW [] none [109] 5)).length = 2 ∧
    ∃ db1, applyTxns { commits := [], refs := [("HEAD", some [1])] }
        ((commitTxns (buildCommitRecord hashW [] none [109] 5)).take 1) =
        some db1 ∧
      lookupA db1.commits (buildCommitRecord hashW [] none [109] 5).hash =
        some (buildCommitRecord hashW [] none [109] 5) ∧
      lookupA db1.refs "HEAD" = some (some [1]) :=
  c3_commit_not_atomic _ _ _ rfl (by simp [lookupA])

/-! ## Load/cache infrastructure shared by C1, C7, C8 -/

theorem lookupA_mem {α β : Type} [DecidableEq α] {l : List (α × β)} {k : α}
    {v : β} (h : lookupA l k = some v) : (k, v) ∈ l := by
  induction l with
  | nil => simp [lookupA] at h
  | cons q rest ih =>
      simp only [lookupA] at h
      by_cases hq : q.1 = k
      · rw [if_pos hq] at h
        cases h
        rw [← hq]
        exact List.mem_cons_self _ _
      · rw [if_neg hq] at h
        exact List.mem_cons_of_mem _ (ih h)

theorem mem_insertA {α β : Type} [DecidableEq α] {l : List (α × β)} {k : α}
    {v : β} : ∀ kv ∈ insertA l k v, kv = (k, v) ∨ kv ∈ l := by
  induction l with
  | nil =>
      intro kv hkv
      simp only [insertA, List.mem_singleton] at hkv
      exact Or.inl hkv
  | cons q rest ih =>
      intro kv hkv
      simp only [insertA] at hkv
      by_cases hq : q.1 = k
      · rw [if_pos hq] at hkv
        rcases List.mem_cons.mp hkv with h | h
        · exact Or.inl h
        · exact Or.inr (List.mem_cons_of_mem _ h)
      · rw [if_neg hq] at hkv
        rcases List.mem_cons.mp hkv with h | h
        · exact Or.inr (h ▸ List.mem_cons_self _ _)
        · rcases ih kv h with h' | h'
          · exact Or.inl h'
          · exact Or.inr (List.mem_cons_of_mem _ h')

theorem evictLoop_subset {cache : List (Bytes × Bytes)}
    {cur dataSize maxSize : Nat} :
    ∀ kv ∈ (evictLoop cache cur dataSize maxSize).1, kv ∈ cache := by
  induction cache generalizing cur with
  | nil => simp [evictLoop]
  | cons q rest ih =>
      intro kv hkv
      simp only [evictLoop] at hkv
      by_cases hover : cur + dataSize > maxSize
      · rw [if_pos hover] at hkv
        exact List.mem_cons_of_mem _ (ih kv hkv)
      · rw [if_neg hover] at hkv
        exact hkv

theorem maybeCacheChunk_fs (s : StoreState) (h data : Bytes) :
    (maybeCacheChunk s h data).fs = s.fs := by
  rw [maybeCacheChunk]
  split <;> rfl

theorem maybeCacheChunk_fields (s : StoreState) (h data : Bytes) :
    (maybeCacheChunk s h data).fs = s.fs ∧
    (maybeCacheChunk s h data).existenceCache = s.existenceCache ∧
    (maybeCacheChunk s h data).negativeCache = s.negativeCache ∧
    (maybeCacheChunk s h data).deltaCache = s.deltaCache ∧
    (maybeCacheChunk s h data).maxCacheSize = s.maxCacheSize := by
  rw [maybeCacheChunk]
  split <;> exact ⟨rfl, rfl, rfl, rfl, rfl⟩

theorem maybeCacheChunk_cache_mem (s : StoreState) (h data : Bytes) :
    ∀ kv ∈ (maybeCacheChunk s h data).chunkCache,
      kv = (h, data) ∨ kv ∈ s.chunkCache := by
  intro kv hkv
  rw [maybeCacheChunk] at hkv
  by_cases hbig : data.length > s.maxCacheSize / 4
  · rw [if_pos hbig] at hkv
    exact Or.inr hkv
  · rw [if_neg hbig] at hkv
    rcases mem_insertA kv hkv with h' | h'
    · exact Or.inl h'
    · exact Or.inr (evictLoop_subset kv h')

theorem cacheOk_maybeCache {e : Env} {s : StoreState} {h data : Bytes}
    (hok : CacheOk e s) (hH : e.H data = h) :
    CacheOk e (maybeCacheChunk s h data) := by
  intro kv hkv
  rcases maybeCacheChunk_cache_mem s h data kv hkv with rfl | h'
  · exact hH
  · exact hok kv h'

theorem cacheInFs_maybeCache {e : Env} {s : StoreState} {h data : Bytes}
    (hok : CacheInFs s) (hfs : (lookupA s.fs h).isSome) :
    CacheInFs (maybeCacheChunk s h data) := by
  intro kv hkv
  rw [maybeCacheChunk_fs]
  rcases maybeCacheChunk_cache_mem s h data kv hkv with rfl | h'
  · exact hfs
  · exact hok kv h'

theorem decodeRecord_mono (c : Codec)
    (f₁ f₂ : Bytes → Except BlazeError Bytes) (fileData d : Bytes)
    (hf : ∀ x y, f₁ x = .ok y → f₂ x = .ok y)
    (h : decodeRecord c f₁ fileData = .ok d) :
    decodeRecord c f₂ fileData = .ok d := by
  simp only [decodeRecord] at h ⊢
  by_cases h3 : fileData.headD 0 = 3
  · rw [if_pos h3] at h ⊢
    by_cases hnp : ((fileData.findIdx? (fun x => x = 0)).getD
        fileData.length) + 1 ≥ fileData.length
    · rw [if_pos hnp] at h
      exact absurd h (by simp)
    · rw [if_neg hnp] at h ⊢
      cases hb : f₁ ((fileData.drop 1).take
          (((fileData.findIdx? (fun x => x = 0)).getD fileData.length) - 1))
          with
      | error er =>
          rw [hb] at h
          exact absurd h (by simp)
      | ok baseData =>
          rw [hb] at h
          rw [hf _ _ hb]
          exact h
  · rw [if_neg h3] at h ⊢
    exact h

theorem loadStep_mono (e : Env) (fs : List (Bytes × Bytes))
    (f₁ f₂ : Bytes → Except BlazeError Bytes) (h d : Bytes)
    (hf : ∀ x y, f₁ x = .ok y → f₂ x = .ok y)
    (hl : loadStep e fs f₁ h = .ok d) : loadStep e fs f₂ h = .ok d := by
  simp only [loadStep] at hl ⊢
  cases hfd : lookupA fs h with
  | none =>
      rw [hfd] at hl
      simp at hl
  | some fileData =>
      simp only [hfd] at hl ⊢
      by_cases hempty : fileData = []
      · rw [if_pos hempty] at hl
        simp at hl
      · rw [if_neg hempty] at hl ⊢
        cases hres : decodeRecord e.codec f₁ fileData with
        | error er => simp [hres] at hl
        | ok data =>
            have hres' := decodeRecord_mono e.codec f₁ f₂ fileData data hf hres
            simp only [hres] at hl
            rw [hres']
            exact hl

theorem loadChunkUncached_mono (e : Env) (fs : List (Bytes × Bytes)) :
    ∀ (n : Nat) (h d : Bytes), loadChunkUncached e fs n h = .ok d →
      loadChunkUncached e fs (n + 1) h = .ok d := by
  intro n
  induction n with
  | zero =>
      intro h d hl
      simp [loadChunkUncached] at hl
  | succ n ih =>
      intro h d hl
      rw [show loadChunkUncached e fs (n + 1) h =
        loadStep e fs (loadChunkUncached e fs n) h from rfl] at hl
      rw [show loadChunkUncached e fs (n + 1 + 1) h =
        loadStep e fs (loadChunkUncached e fs (n + 1)) h from rfl]
      exact loadStep_mono e fs _ _ h d (fun x y hxy => ih x y hxy) hl

theorem loadChunkUncached_le (e : Env) (fs : List (Bytes × Bytes))
    {n m : Nat} (hnm : n ≤ m) {h d : Bytes}
    (hl : loadChunkUncached e fs n h = .ok d) :
    loadChunkUncached e fs m h = .ok d := by
  induction m with
  | zero =>
      rw [Nat.le_zero.mp hnm] at hl
      exact hl
  | succ m ih =>
      rcases Nat.lt_or_ge n (m + 1) with hlt | hge
      · exact loadChunkUncached_mono e fs m h d (ih (by omega))
      · rw [show n = m + 1 from by omega] at hl
        exact hl

theorem loadChunkUncached_det (e : Env) (fs : List (Bytes × Bytes))
    {n m : Nat} {h d d' : Bytes}
    (h1 : loadChunkUncached e fs n h = .ok d)
    (h2 : loadChunkUncached e fs m h = .ok d') : d = d' := by
  have h1' := loadChunkUncached_le e fs (Nat.le_max_left n m) h1
  have h2' := loadChunkUncached_le e fs (Nat.le_max_right n m) h2
  rw [h1'] at h2'
  cases h2'
  rfl

theorem loadChunkUncached_ok_lookup (e : Env) (fs : List (Bytes × Bytes))
    {n : Nat} {h d : Bytes} (hl : loadChunkUncached e fs n h = .ok d) :
    (lookupA fs h).isSome := by
  match n with
  | 0 => simp [loadChunkUncached] at hl
  | n + 1 =>
      rw [show loadChunkUncached e fs (n + 1) h =
        loadStep e fs (loadChunkUncached e fs n) h from rfl] at hl
      simp only [loadStep] at hl
      cases hfd : lookupA fs h with
      | none =>
          rw [hfd] at hl
          simp at hl
      | some fileData => rfl

theorem loadChunk_fs (e : Env) (fuel : Nat) (s : StoreState) (h : Bytes) :
    (loadChunk e fuel s h).2.fs = s.fs := by
  simp only [loadChunk]
  cases hc : lookupA s.chunkCache h with
  | some d => rfl
  | none =>
      cases hu : loadChunkUncached e s.fs fuel h with
      | error er => rfl
      | ok d => exact maybeCacheChunk_fs s h d

theorem loadChunk_hash (e : Env) (fuel : Nat) (s : StoreState) (h d : Bytes)
    (s₂ : StoreState) (hinj : Function.Injective e.H) (hc : CacheOk e s)
    (hg : GoodStore e s.fs) (hl : loadChunk e fuel s h = (.ok d, s₂)) :
    e.H d = h := by
  simp only [loadChunk] at hl
  cases hcc : lookupA s.chunkCache h with
  | some d0 =>
      rw [hcc] at hl
      cases hl
      exact hc _ (lookupA_mem hcc)
  | none =>
      rw [hcc] at hl
      cases hu : loadChunkUncached e s.fs fuel h with
      | error er => rw [hu] at hl; cases hl
      | ok d0 =>
          rw [hu] at hl
          cases hl
          have hsome := loadChunkUncached_ok_lookup e s.fs hu
          cases hr : lookupA s.fs h with
          | none => rw [hr] at hsome; simp at hsome
          | some r =>
              obtain ⟨n₀, d₀, hl₀, hH₀⟩ := hg h r hr
              rw [loadChunkUncached_det e s.fs hu hl₀]
              exact hH₀

theorem loadChunk_cacheOk (e : Env) (fuel : Nat) (s : StoreState)
    (h d : Bytes) (s₂ : StoreState) (hinj : Function.Injective e.H)
    (hc : CacheOk e s) (hg : GoodStore e s.fs)
    (hl : loadChunk e fuel s h = (.ok d, s₂)) : CacheOk e s₂ := by
  have hH := loadChunk_hash e fuel s h d s₂ hinj hc hg hl
  simp only [loadChunk] at hl
  cases hcc : lookupA s.chunkCache h with
  | some d0 =>
      rw [hcc] at hl
      cases hl
      exact hc
  | none =>
      rw [hcc] at hl
      cases hu : loadChunkUncached e s.fs fuel h with
      | error er => rw [hu] at hl; cases hl
      | ok d0 =>
          rw [hu] at hl
          cases hl
          exact cacheOk_maybeCache hc hH

theorem loadChunksSeq_spec (e : Env) (fuel : Nat)
    (hinj : Function.Injective e.H) :
    ∀ (chunks : List Bytes) (s : StoreState), CacheOk e s →
      GoodStore e s.fs → ∀ datas s',
      loadChunksSeq e fuel s chunks = .ok (datas, s') →
      s'.fs = s.fs ∧ CacheOk e s' ∧ datas.length = chunks.length ∧
      ∀ i, i < datas.length →
        e.H (datas.getD i []) = chunks.getD i [] := by
  intro chunks
  induction chunks with
  | nil =>
      intro s hc hg datas s' hl
      simp only [loadChunksSeq] at hl
      cases hl
      exact ⟨rfl, hc, rfl, by intro i hi; simp at hi⟩
  | cons h rest ih =>
      intro s hc hg datas s' hl
      simp only [loadChunksSeq] at hl
      cases hone : loadChunk e fuel s h with
      | mk r s₁ =>
          rw [hone] at hl
          cases r with
          | error er => simp at hl
          | ok d =>
              simp only at hl
              cases hrest : loadChunksSeq e fuel s₁ rest with
              | error er => rw [hrest] at hl; simp at hl
              | ok pr =>
                  rw [hrest] at hl
                  cases pr with
                  | mk ds s₂ =>
                      simp only at hl
                      have hfs₁ : s₁.fs = s.fs := by
                        have := loadChunk_fs e fuel s h
                        rw [hone] at this
                        exact this
                      have hH : e.H d = h :=
                        loadChunk_hash e fuel s h d s₁ hinj hc hg hone
                      have hc₁ : CacheOk e s₁ :=
                        loadChunk_cacheOk e fuel s h d s₁ hinj hc hg hone
                      have hg₁ : GoodStore e s₁.fs := by
                        rw [hfs₁]
                        exact hg
                      obtain ⟨hfs₂, hc₂, hlen, hidx⟩ :=
                        ih s₁ hc₁ hg₁ ds s₂ hrest
                      cases hl
                      refine ⟨by rw [hfs₂, hfs₁], hc₂, by simp [hlen], ?_⟩
                      intro i hi
                      match i with
                      | 0 => exact hH
                      | i + 1 =>
                          simp only [List.getD_cons_succ]
                          exact hidx i (by simp at hi; omega)

theorem restoreFiles_spec (e : Env) (fuel now : Nat)
    (hinj : Function.Injective e.H) :
    ∀ (files : List (Bytes × FileRecord)) (s : StoreState)
      (wtree : List (Bytes × WorkFile)), CacheOk e s → GoodStore e s.fs →
      (files.map (fun q => q.2.path)).Nodup →
      ∀ s' w', restoreFiles e fuel now s wtree files = .ok (s', w') →
      s'.fs = s.fs ∧ CacheOk e s' ∧
      (∀ p, p ∉ files.map (fun q => q.2.path) →
        lookupA w' p = lookupA wtree p) ∧
      (∀ record, record ∈ files.map Prod.snd →
        ∃ datas : List Bytes, datas.length = record.chunks.length ∧
          (∀ i, i < datas.length →
            e.H (datas.getD i []) = record.chunks.getD i []) ∧
          lookupA w' record.path = some
            { data := datas.flatten, permissions := record.permissions,
              mtime := now }) := by
  intro files
  induction files with
  | nil =>
      intro s wtree hc hg hnd s' w' hl
      simp only [restoreFiles] at hl
      cases hl
      exact ⟨rfl, hc, fun p _ => rfl, by simp⟩
  | cons q rest ih =>
      intro s wtree hc hg hnd s' w' hl
      simp only [restoreFiles, restoreOne] at hl
      cases hseq : loadChunksSeq e fuel s q.2.chunks with
      | error er => rw [hseq] at hl; simp at hl
      | ok pr =>
          rw [hseq] at hl
          cases pr with
          | mk datas s₁ =>
              simp only at hl
              obtain ⟨hfs₁, hc₁, hlen, hidx⟩ :=
                loadChunksSeq_spec e fuel hinj q.2.chunks s hc hg datas s₁
                  hseq
              have hg₁ : GoodStore e s₁.fs := by
                rw [hfs₁]
                exact hg
              simp only [List.map_cons, List.nodup_cons] at hnd
              obtain ⟨hqnot, hndrest⟩ := hnd
              have hrest : restoreFiles e fuel now s₁
                  (insertA wtree q.2.path
                    { data := datas.flatten, permissions := q.2.permissions,
                      mtime := now }) rest = .ok (s', w') := hl
              obtain ⟨hfs', hc', huntouched, hfound⟩ :=
                ih s₁ _ hc₁ hg₁ hndrest s' w' hrest
              refine ⟨by rw [hfs', hfs₁], hc', ?_, ?_⟩
              · intro p hp
                simp only [List.map_cons, List.mem_cons] at hp
                push_neg at hp
                rw [huntouched p hp.2]
                exact lookupA_insertA_ne _ _ _ _ hp.1
              · intro record hrec
                simp only [List.map_cons, List.mem_cons] at hrec
                rcases hrec with hrec | hrec
                · subst hrec
                  refine ⟨datas, hlen, hidx, ?_⟩
                  rw [huntouched _ hqnot]
                  exact lookupA_insertA_self _ _ _
                · exact hfound record hrec

/-- C8 (corrected): once the target commit is resolved, `checkout`
writes, for every manifest record, the file whose bytes are the
concatenation of the record's chunks (each loaded block re-hashes to the
recorded digest), restores the recorded permissions, updates `HEAD` to
the target commit, and leaves working-tree files absent from the commit
untouched — but it stamps the file with the write time `now` instead of
restoring the recorded mtime (see the counterexample). -/
theorem c8_checkout (e : Env) (fuel now : Nat) (s : StoreState)
    (wtree : List (Bytes × WorkFile)) (db : DbState)
    (commit : CommitRecord) (hinj : Function.Injective e.H)
    (hc : CacheOk e s) (hg : GoodStore e s.fs)
    (hnd : (commit.files.map (fun q => q.2.path)).Nodup)
    (s' : StoreState) (w' : List (Bytes × WorkFile)) (db' : DbState)
    (hok : checkoutApply e fuel now s wtree db commit = .ok (s', w', db')) :
    (∀ record, record ∈ commit.files.map Prod.snd →
      ∃ datas : List Bytes, datas.length = record.chunks.length ∧
        (∀ i, i < datas.length →
          e.H (datas.getD i []) = record.chunks.getD i []) ∧
        lookupA w' record.path = some
          { data := datas.flatten, permissions := record.permissions,
            mtime := now }) ∧
    (∀ p, p ∉ commit.files.map (fun q => q.2.path) →
      lookupA w' p = lookupA wtree p) ∧
    lookupA db'.refs "HEAD" = some (some commit.hash) ∧
    db'.commits = db.commits := by
  simp only [checkoutApply] at hok
  cases hres : restoreFiles e fuel now s wtree commit.files with
  | error er => rw [hres] at hok; simp at hok
  | ok pr =>
      rw [hres] at hok
      cases pr with
      | mk s₁ w₁ =>
          simp only at hok
          obtain ⟨_, _, huntouched, hfound⟩ :=
            restoreFiles_spec e fuel now hinj commit.files s wtree hc hg hnd
              s₁ w₁ hres
          cases hok
          exact ⟨hfound, huntouched, lookupA_insertA_self _ _ _, rfl⟩

theorem encodeL_inj : Function.Injective encodeL := by
  intro a
  induction a with
  | nil =>
      intro b h
      cases b with
      | nil => rfl
      | cons y t => simp [encodeL] at h
  | cons x r ih =>
      intro b h
      cases b with
      | nil => simp [encodeL] at h
      | cons y t =>
          simp only [encodeL, Nat.add_right_cancel_iff] at h
          rw [Nat.pair_eq_pair] at h
          obtain ⟨rfl, h2⟩ := h
          rw [ih h2]

theorem hashW_inj : Function.Injective hashW := by
  intro a b h
  simp only [hashW, List.cons.injEq] at h
  exact encodeL_inj (by omega)

theorem hashW_hashOk : HashOk hashW := by
  refine ⟨hashW_inj, ?_, ?_⟩
  · intro d hd
    simp only [hashW, List.mem_cons] at hd
    rcases hd with h | h
    · omega
    · have := List.eq_of_mem_replicate h
      omega
  · intro d
    simp [hashW]

theorem storeW_cacheOk : CacheOk envW storeW := by
  intro kv hkv
  have hc : storeW.chunkCache = [(hashW [9], [9])] := rfl
  rw [hc] at hkv
  rw [List.mem_singleton.mp hkv]
  rfl

theorem storeW_goodStore : GoodStore envW storeW.fs := by
  intro h r hl
  have hfs : storeW.fs = [(hashW [9], [0, 9])] := rfl
  rw [hfs] at hl
  simp only [lookupA] at hl
  by_cases hh : hashW [9] = h
  · refine ⟨1, [9], ?_, ?_⟩
    · rw [← hh]
      rfl
    · rw [← hh]
      rfl
  · rw [if_neg hh] at hl
    simp [lookupA] at hl

/-- Witness for C8: checking out `commitW` from `storeW` writes the file
with the chunk bytes, the recorded permissions, and the write time. -/
theorem c8_checkout_witness :
    ∃ datas : List Bytes, datas.length = recW.chunks.length ∧
      (∀ i, i < datas.length →
        envW.H (datas.getD i []) = recW.chunks.getD i []) ∧
      lookupA [(([97] : Bytes), WorkFile.mk [9] 420 10)] recW.path =
        some (WorkFile.mk datas.flatten recW.permissions 10) := by
  have hmain := c8_checkout envW 1 10 storeW [] ⟨[], []⟩ commitW hashW_inj
    storeW_cacheOk storeW_goodStore (by decide) storeW
    [([97], WorkFile.mk [9] 420 10)]
    ⟨[], [("HEAD", some [5])]⟩ rfl
  exact hmain.1 recW (by decide)

/-- Counterexample to C8 as stated: the working file written by checkout
carries the write time (`10`), not the record's mtime (`5`) — the
recorded mtime is never restored. -/
theorem c8_counterexample :
    checkoutApply envW 1 10 storeW [] ⟨[], []⟩ commitW =
      .ok (storeW, [([97], WorkFile.mk [9] 420 10)],
        ⟨[], [("HEAD", some [5])]⟩) ∧
    recW.mtime ≠ 10 := ⟨rfl, by decide⟩

/-! ## Claim C10: byte-cache accounting -/

theorem lookupA_isSome_of_mem {α β : Type} [DecidableEq α]
    {l : List (α × β)} {k : α} {v : β} (h : (k, v) ∈ l) :
    (lookupA l k).isSome := by
  induction l with
  | nil => simp at h
  | cons q rest ih =>
      simp only [lookupA]
      by_cases hq : q.1 = k
      · rw [if_pos hq]
        rfl
      · rw [if_neg hq]
        rcases List.mem_cons.mp h with h' | h'
        · subst h'
          simp at hq
        · exact ih h'

theorem insertA_of_lookup_none {α β : Type} [DecidableEq α]
    {l : List (α × β)} {k : α} (v : β) (h : lookupA l k = none) :
    insertA l k v = l ++ [(k, v)] := by
  induction l with
  | nil => rfl
  | cons q rest ih =>
      simp only [lookupA] at h
      by_cases hq : q.1 = k
      · rw [if_pos hq] at h
        cases h
      · rw [if_neg hq] at h
        simp only [insertA, if_neg hq, List.cons_append]
        rw [ih h]

theorem evictLoop_spec :
    ∀ (cache : List (Bytes × Bytes)) (cur ds ms : Nat),
      cur = (cache.map (fun kv => kv.2.length)).sum →
      (evictLoop cache cur ds ms).2 =
        (((evictLoop cache cur ds ms).1).map (fun kv => kv.2.length)).sum ∧
      ((evictLoop cache cur ds ms).2 + ds ≤ ms ∨
        (evictLoop cache cur ds ms).1 = []) := by
  intro cache
  induction cache with
  | nil =>
      intro cur ds ms hcur
      exact ⟨hcur, Or.inr rfl⟩
  | cons q rest ih =>
      intro cur ds ms hcur
      simp only [evictLoop]
      by_cases hover : cur + ds > ms
      · rw [if_pos hover]
        have : cur - q.2.length =
            (rest.map (fun kv => kv.2.length)).sum := by
          simp only [List.map_cons, List.sum_cons] at hcur
          omega
        exact ih _ ds ms this
      · rw [if_neg hover]
        exact ⟨hcur, Or.inl (by omega)⟩

theorem evictLoop_lookup_none {cache : List (Bytes × Bytes)}
    {cur ds ms : Nat} {h : Bytes} (habs : lookupA cache h = none) :
    lookupA (evictLoop cache cur ds ms).1 h = none := by
  cases hres : lookupA (evictLoop cache cur ds ms).1 h with
  | none => rfl
  | some v =>
      have hmem := evictLoop_subset _ (lookupA_mem hres)
      have := lookupA_isSome_of_mem hmem
      rw [habs] at this
      simp at this

theorem maybeCacheChunk_acct {s : StoreState} {h data : Bytes}
    (hacct : CacheAcct s) (habsent : lookupA s.chunkCache h = none) :
    CacheAcct (maybeCacheChunk s h data) := by
  obtain ⟨hsum, hbound, hadm⟩ := hacct
  rw [maybeCacheChunk]
  by_cases hbig : data.length > s.maxCacheSize / 4
  · rw [if_pos hbig]
    exact ⟨hsum, hbound, hadm⟩
  · rw [if_neg hbig]
    obtain ⟨hesum, hecase⟩ := evictLoop_spec s.chunkCache s.currentCacheSize
      data.length s.maxCacheSize hsum
    have habs' : lookupA (evictLoop s.chunkCache s.currentCacheSize
        data.length s.maxCacheSize).1 h = none := evictLoop_lookup_none habsent
    refine ⟨?_, ?_, ?_⟩
    · simp only
      rw [insertA_of_lookup_none data habs', List.map_append, List.sum_append]
      simp [hesum]
    · simp only
      rcases hecase with hle | hemp
      · omega
      · rw [hemp] at hesum
        simp at hesum
        have : data.length ≤ s.maxCacheSize / 4 := by omega
        have h4 : s.maxCacheSize / 4 ≤ s.maxCacheSize := Nat.div_le_self _ _
        omega
    · intro kv hkv
      simp only at hkv
      rw [insertA_of_lookup_none data habs'] at hkv
      rcases List.mem_append.mp hkv with hkv | hkv
      · exact hadm kv (evictLoop_subset kv hkv)
      · simp only [List.mem_singleton] at hkv
        subst hkv
        simpa using by omega

theorem maybeCacheChunk_absent {s : StoreState} {h' data h : Bytes}
    (hne : h ≠ h') (habs : lookupA s.chunkCache h = none) :
    lookupA (maybeCacheChunk s h' data).chunkCache h = none := by
  cases hres : lookupA (maybeCacheChunk s h' data).chunkCache h with
  | none => rfl
  | some v =>
      rcases maybeCacheChunk_cache_mem s h' data _ (lookupA_mem hres)
          with heq | hmem
      · cases heq
        exact absurd rfl hne
      · have := lookupA_isSome_of_mem hmem
        rw [habs] at this
        simp at this

theorem chunkExists_fields (s : StoreState) (h : Bytes) :
    (chunkExists s h).2.chunkCache = s.chunkCache ∧
    (chunkExists s h).2.currentCacheSize = s.currentCacheSize ∧
    (chunkExists s h).2.maxCacheSize = s.maxCacheSize ∧
    (chunkExists s h).2.fs = s.fs ∧
    (chunkExists s h).2.deltaCache = s.deltaCache := by
  unfold chunkExists
  split_ifs <;> exact ⟨rfl, rfl, rfl, rfl, rfl⟩

theorem chunkExists_false {s : StoreState} {h : Bytes}
    (hfalse : (chunkExists s h).1 = false) :
    lookupA s.chunkCache h = none := by
  unfold chunkExists at hfalse
  by_cases h1 : (lookupA s.chunkCache h).isSome
  · rw [if_pos h1] at hfalse
    simp at hfalse
  · exact Option.not_isSome_iff_eq_none.mp h1

theorem dedupeByHash_spec :
    ∀ (l : List FileChunk) (seen : List Bytes),
      (∀ ch ∈ dedupeByHash seen l, ch.hash ∉ seen) ∧
      ((dedupeByHash seen l).map (fun ch => ch.hash)).Nodup := by
  intro l
  induction l with
  | nil => intro seen; exact ⟨by simp [dedupeByHash], by simp [dedupeByHash]⟩
  | cons ch rest ih =>
      intro seen
      by_cases hmem : ch.hash ∈ seen
      · have hsplit : dedupeByHash seen (ch :: rest) =
            dedupeByHash seen rest := by
          simp [dedupeByHash, hmem]
        rw [hsplit]
        exact ih seen
      · have hsplit : dedupeByHash seen (ch :: rest) =
            ch :: dedupeByHash (ch.hash :: seen) rest := by
          simp [dedupeByHash, hmem]
        rw [hsplit]
        obtain ⟨hnotin, hnd⟩ := ih (ch.hash :: seen)
        constructor
        · intro ch' hch'
          rcases List.mem_cons.mp hch' with h' | h'
          · subst h'
            exact hmem
          · have := hnotin ch' h'
            simp only [List.mem_cons] at this
            push_neg at this
            exact this.2
        · simp only [List.map_cons, List.nodup_cons]
          refine ⟨?_, hnd⟩
          intro hcon
          simp only [List.mem_map] at hcon
          obtain ⟨ch', hch', heq⟩ := hcon
          have := hnotin ch' hch'
          simp only [List.mem_cons] at this
          push_neg at this
          exact this.1 heq

theorem filterNew_spec :
    ∀ (l : List FileChunk) (s : StoreState),
      (filterNew s l).2.chunkCache = s.chunkCache ∧
      (filterNew s l).2.currentCacheSize = s.currentCacheSize ∧
      (filterNew s l).2.maxCacheSize = s.maxCacheSize ∧
      (filterNew s l).2.fs = s.fs ∧
      (filterNew s l).2.deltaCache = s.deltaCache ∧
      List.Sublist (filterNew s l).1 l ∧
      (∀ ch ∈ (filterNew s l).1, lookupA s.chunkCache ch.hash = none) := by
  intro l
  induction l with
  | nil =>
      intro s
      exact ⟨rfl, rfl, rfl, rfl, rfl, List.Sublist.refl _, by simp [filterNew]⟩
  | cons ch rest ih =>
      intro s
      obtain ⟨hcc, hcur, hmax, hfs, hdc⟩ := chunkExists_fields s ch.hash
      obtain ⟨icc, icur, imax, ifs, idc, isub, iabs⟩ :=
        ih (chunkExists s ch.hash).2
      simp only [filterNew]
      refine ⟨by rw [icc, hcc], by rw [icur, hcur], by rw [imax, hmax],
        by rw [ifs, hfs], by rw [idc, hdc], ?_, ?_⟩
      · by_cases hex : (chunkExists s ch.hash).1
        · rw [if_pos hex]
          exact isub.cons _
        · rw [if_neg hex]
          exact isub.cons₂ _
      · intro c hc
        by_cases hex : (chunkExists s ch.hash).1
        · rw [if_pos hex] at hc
          rw [← hcc]
          exact iabs c hc
        · rw [if_neg hex] at hc
          rcases List.mem_cons.mp hc with h' | h'
          · subst h'
            exact chunkExists_false (by simpa using hex)
          · rw [← hcc]
            exact iabs c h'

theorem findExisting_fields :
    ∀ (l : List Bytes) (s : StoreState),
      (findExisting s l).2.chunkCache = s.chunkCache ∧
      (findExisting s l).2.currentCacheSize = s.currentCacheSize ∧
      (findExisting s l).2.maxCacheSize = s.maxCacheSize ∧
      (findExisting s l).2.fs = s.fs ∧
      (findExisting s l).2.deltaCache = s.deltaCache := by
  intro l
  induction l with
  | nil => intro s; exact ⟨rfl, rfl, rfl, rfl, rfl⟩
  | cons h rest ih =>
      intro s
      obtain ⟨hcc, hcur, hmax, hfs, hdc⟩ := chunkExists_fields s h
      simp only [findExisting]
      by_cases hex : (chunkExists s h).1
      · rw [if_pos hex]
        exact ⟨hcc, hcur, hmax, hfs, hdc⟩
      · rw [if_neg hex]
        obtain ⟨icc, icur, imax, ifs, idc⟩ := ih (chunkExists s h).2
        exact ⟨by rw [icc, hcc], by rw [icur, hcur], by rw [imax, hmax],
          by rw [ifs, hfs], by rw [idc, hdc]⟩

theorem findSimilarChunk_fields (e : Env) (fuel : Nat) (s : StoreState)
    (chunkHash data : Bytes) :
    (findSimilarChunk e fuel s chunkHash data).2.chunkCache = s.chunkCache ∧
    (findSimilarChunk e fuel s chunkHash data).2.currentCacheSize =
      s.currentCacheSize ∧
    (findSimilarChunk e fuel s chunkHash data).2.maxCacheSize =
      s.maxCacheSize ∧
    (findSimilarChunk e fuel s chunkHash data).2.fs = s.fs ∧
    (findSimilarChunk e fuel s chunkHash data).2.deltaCache =
      s.deltaCache := by
  obtain ⟨hcc, hcur, hmax, hfs, hdc⟩ :=
    findExisting_fields ((lookupA s.deltaCache chunkHash).getD []) s
  simp only [findSimilarChunk]
  cases hopt : (findExisting s ((lookupA s.deltaCache chunkHash).getD [])).1
      with
  | some h => exact ⟨hcc, hcur, hmax, hfs, hdc⟩
  | none => exact ⟨hcc, hcur, hmax, hfs, hdc⟩

theorem compressOne_fields (e : Env) (fuel : Nat) (s : StoreState)
    (ch : FileChunk) :
    (compressOne e fuel s ch).2.chunkCache = s.chunkCache ∧
    (compressOne e fuel s ch).2.currentCacheSize = s.currentCacheSize ∧
    (compressOne e fuel s ch).2.maxCacheSize = s.maxCacheSize ∧
    (compressOne e fuel s ch).2.fs = s.fs ∧
    (compressOne e fuel s ch).2.deltaCache = s.deltaCache := by
  obtain ⟨hcc, hcur, hmax, hfs, hdc⟩ :=
    findSimilarChunk_fields e fuel s ch.hash ch.data
  simp only [compressOne]
  by_cases hbig : ch.data.length > 1024
  · rw [if_pos hbig]
    cases hopt : (findSimilarChunk e fuel s ch.hash ch.data).1 with
    | none => exact ⟨hcc, hcur, hmax, hfs, hdc⟩
    | some baseHash =>
        dsimp only
        cases hload : loadChunkUncached e
            (findSimilarChunk e fuel s ch.hash ch.data).2.fs fuel baseHash
            with
        | error er => exact ⟨hcc, hcur, hmax, hfs, hdc⟩
        | ok baseData =>
            dsimp only
            split_ifs <;> exact ⟨hcc, hcur, hmax, hfs, hdc⟩
  · rw [if_neg hbig]
    exact ⟨rfl, rfl, rfl, rfl, rfl⟩

theorem compressPhase_fields (e : Env) (fuel : Nat) :
    ∀ (l : List FileChunk) (s : StoreState),
      (compressPhase e fuel s l).2.chunkCache = s.chunkCache ∧
      (compressPhase e fuel s l).2.currentCacheSize = s.currentCacheSize ∧
      (compressPhase e fuel s l).2.maxCacheSize = s.maxCacheSize ∧
      (compressPhase e fuel s l).2.fs = s.fs ∧
      (compressPhase e fuel s l).2.deltaCache = s.deltaCache := by
  intro l
  induction l with
  | nil => intro s; exact ⟨rfl, rfl, rfl, rfl, rfl⟩
  | cons ch rest ih =>
      intro s
      obtain ⟨hcc, hcur, hmax, hfs, hdc⟩ := compressOne_fields e fuel s ch
      obtain ⟨icc, icur, imax, ifs, idc⟩ := ih (compressOne e fuel s ch).2
      simp only [compressPhase]
      exact ⟨by rw [icc, hcc], by rw [icur, hcur], by rw [imax, hmax],
        by rw [ifs, hfs], by rw [idc, hdc]⟩

theorem writePhase_cacheFields :
    ∀ (l : List (Bytes × Bytes × Option Bytes)) (s : StoreState),
      (writePhase s l).chunkCache = s.chunkCache ∧
      (writePhase s l).currentCacheSize = s.currentCacheSize ∧
      (writePhase s l).maxCacheSize = s.maxCacheSize ∧
      (writePhase s l).existenceCache = s.existenceCache ∧
      (writePhase s l).negativeCache = s.negativeCache := by
  intro l
  induction l with
  | nil => intro s; exact ⟨rfl, rfl, rfl, rfl, rfl⟩
  | cons t rest ih =>
      intro s
      obtain ⟨t1, t2, t3⟩ := t
      simp only [writePhase]
      cases t3 with
      | none => exact ih _
      | some baseHash => exact ih _

theorem markStored_cacheFields (s : StoreState) (h data : Bytes) :
    (markStored s h data).chunkCache = (maybeCacheChunk s h data).chunkCache ∧
    (markStored s h data).currentCacheSize =
      (maybeCacheChunk s h data).currentCacheSize ∧
    (markStored s h data).maxCacheSize =
      (maybeCacheChunk s h data).maxCacheSize :=
  ⟨rfl, rfl, rfl⟩

theorem cacheAcct_fields {s s' : StoreState}
    (hcc : s'.chunkCache = s.chunkCache)
    (hcur : s'.currentCacheSize = s.currentCacheSize)
    (hmax : s'.maxCacheSize = s.maxCacheSize) (hacct : CacheAcct s) :
    CacheAcct s' := by
  obtain ⟨h1, h2, h3⟩ := hacct
  refine ⟨?_, ?_, ?_⟩
  · rw [hcc, hcur, h1]
  · rw [hcur, hmax]
    exact h2
  · rw [hcc, hmax]
    exact h3

theorem markStored_acct {s : StoreState} {h data : Bytes}
    (hacct : CacheAcct s) (habsent : lookupA s.chunkCache h = none) :
    CacheAcct (markStored s h data) :=
  cacheAcct_fields rfl rfl rfl (maybeCacheChunk_acct hacct habsent)

theorem markAllStored_acct :
    ∀ (l : List FileChunk) (s : StoreState), CacheAcct s →
      ((l.map (fun ch => ch.hash)).Nodup) →
      (∀ ch ∈ l, lookupA s.chunkCache ch.hash = none) →
      CacheAcct (markAllStored s l) := by
  intro l
  induction l with
  | nil =>
      intro s hacct _ _
      exact hacct
  | cons ch rest ih =>
      intro s hacct hnd habs
      simp only [List.map_cons, List.nodup_cons] at hnd
      simp only [markAllStored]
      refine ih (markStored s ch.hash ch.data)
        (markStored_acct hacct (habs ch (List.mem_cons_self _ _))) hnd.2 ?_
      intro c hc
      have hne : c.hash ≠ ch.hash := by
        intro hcon
        exact hnd.1 (hcon ▸ List.mem_map_of_mem (fun x => x.hash) hc)
      exact maybeCacheChunk_absent hne (habs c (List.mem_cons_of_mem _ hc))

theorem storeChunk_acct (c : Codec) (s : StoreState) (ch : FileChunk)
    (hacct : CacheAcct s) : CacheAcct (storeChunk c s ch).1 := by
  obtain ⟨hcc, hcur, hmax, _, _⟩ := chunkExists_fields s ch.hash
  simp only [storeChunk]
  by_cases hex : (chunkExists s ch.hash).1
  · rw [if_pos hex]
    exact cacheAcct_fields hcc hcur hmax hacct
  · rw [if_neg hex]
    have hacct2 : CacheAcct { (chunkExists s ch.hash).2 with
        fs := insertA (chunkExists s ch.hash).2.fs ch.hash
          (compressChunkData c ch.data) } :=
      cacheAcct_fields hcc hcur hmax hacct
    refine markStored_acct hacct2 ?_
    show lookupA (chunkExists s ch.hash).2.chunkCache ch.hash = none
    rw [hcc]
    exact chunkExists_false (by simpa using hex)

theorem storeChunks_acct (e : Env) (fuel : Nat) (s : StoreState)
    (chunks : List FileChunk) (hacct : CacheAcct s) :
    CacheAcct (storeChunks e fuel s chunks).1 := by
  simp only [storeChunks]
  by_cases hnil : chunks = []
  · rw [if_pos hnil]
    exact hacct
  · rw [if_neg hnil]
    obtain ⟨fcc, fcur, fmax, ffs, fdc, fsub, fabs⟩ :=
      filterNew_spec (dedupeByHash [] chunks) s
    by_cases hfn : (filterNew s (dedupeByHash [] chunks)).1 = []
    · rw [if_pos hfn]
      exact cacheAcct_fields fcc fcur fmax hacct
    · rw [if_neg hfn]
      obtain ⟨ccc, ccur, cmax, cfs, cdc⟩ := compressPhase_fields e fuel
        (filterNew s (dedupeByHash [] chunks)).1
        (filterNew s (dedupeByHash [] chunks)).2
      obtain ⟨wcc, wcur, wmax, _, _⟩ := writePhase_cacheFields
        (compressPhase e fuel (filterNew s (dedupeByHash [] chunks)).2
          (filterNew s (dedupeByHash [] chunks)).1).1
        (compressPhase e fuel (filterNew s (dedupeByHash [] chunks)).2
          (filterNew s (dedupeByHash [] chunks)).1).2
      refine markAllStored_acct _ _
        (cacheAcct_fields (by rw [wcc, ccc, fcc]) (by rw [wcur, ccur, fcur])
          (by rw [wmax, cmax, fmax]) hacct) ?_ ?_
      · exact List.Nodup.sublist (List.Sublist.map _ fsub)
          (dedupeByHash_spec chunks []).2
      · intro ch hch
        rw [wcc, ccc, fcc]
        exact fabs ch hch

theorem loadChunk_acct (e : Env) (fuel : Nat) (s : StoreState) (h : Bytes)
    (hacct : CacheAcct s) : CacheAcct (loadChunk e fuel s h).2 := by
  simp only [loadChunk]
  cases hcc : lookupA s.chunkCache h with
  | some d => exact hacct
  | none =>
      cases hu : loadChunkUncached e s.fs fuel h with
      | error er => exact hacct
      | ok d => exact maybeCacheChunk_acct hacct hcc

/-- C10 (corrected): under every sequence of `store_chunk`,
`store_chunks`, `load_chunk` and `clear_cache` operations the byte-cache
accounting invariant holds — `current_cache_size` equals the sum of the
cached entry sizes, never exceeds `max_cache_size`, and no cached entry
exceeds a quarter of the budget.  `garbage_collect` (which removes cache
entries without decrementing `current_cache_size`) and `load_chunks`
(which re-caches digests already cached, double-counting them) break the
accounting equation — see the counterexample. -/
theorem c10_cache_accounting (e : Env) (s : StoreState)
    (hreach : ReachAcct e s) : CacheAcct s := by
  induction hreach with
  | init => exact ⟨rfl, by simp [initialStore], by simp [initialStore]⟩
  | storeChunkStep ch _ ih => exact storeChunk_acct e.codec _ ch ih
  | storeChunksStep fuel chunks _ ih => exact storeChunks_acct e fuel _ chunks ih
  | loadChunkStep fuel h _ ih => exact loadChunk_acct e fuel _ h ih
  | clearCacheStep _ ih => exact ⟨rfl, by simp [clearCache], by simp [clearCache]⟩

/-- Witness for C10: the invariant holds for the store reached by one
`store_chunk` on a fresh store. -/
theorem c10_cache_accounting_witness : CacheAcct storeW :=
  c10_cache_accounting envW storeW
    (ReachAcct.storeChunkStep chunkW ReachAcct.init)

/-- Counterexample to C10 as stated: after `store_chunk` of a cached
chunk, `garbage_collect` with an empty active set deletes the chunk file
and drops the cache entry but leaves `current_cache_size` at the old
value — the accounting equation fails. -/
theorem c10_counterexample : ¬ CacheAcct (garbageCollect storeW []).1 := by
  intro hacct
  have h := hacct.1
  rw [show (garbageCollect storeW []).1.currentCacheSize = 1 from rfl] at h
  rw [show (garbageCollect storeW []).1.chunkCache = [] from rfl] at h
  simp at h

/-! ## Claim C7: garbage collection -/

theorem compressChunkData_headD (c : Codec) (d : Bytes) :
    (compressChunkData c d).headD 0 ≠ 3 := by
  simp only [compressChunkData]
  by_cases hsmall : d.length < 128
  · rw [if_pos hsmall]
    simp
  · rw [if_neg hsmall]
    cases hz : c.zstdCompress d (compressionLevel d.length) with
    | some compressed =>
        by_cases hgood : compressed.length < d.length * 9 / 10
        · simp [hgood]
        · simp only [hgood, if_false]
          split_ifs <;> simp
    | none => split_ifs <;> simp

theorem markStored_fsdc (s : StoreState) (h data : Bytes) :
    (markStored s h data).fs = s.fs ∧
    (markStored s h data).deltaCache = s.deltaCache := by
  obtain ⟨hfs, _, _, hdc, _⟩ := maybeCacheChunk_fields s h data
  exact ⟨hfs, hdc⟩

theorem markAllStored_fsdc :
    ∀ (l : List FileChunk) (s : StoreState),
      (markAllStored s l).fs = s.fs ∧
      (markAllStored s l).deltaCache = s.deltaCache := by
  intro l
  induction l with
  | nil => intro s; exact ⟨rfl, rfl⟩
  | cons ch rest ih =>
      intro s
      obtain ⟨hfs, hdc⟩ := markStored_fsdc s ch.hash ch.data
      obtain ⟨ifs, idc⟩ := ih (markStored s ch.hash ch.data)
      simp only [markAllStored]
      exact ⟨by rw [ifs, hfs], by rw [idc, hdc]⟩

theorem findSimilarChunk_none (e : Env) (fuel : Nat) (s : StoreState)
    (chunkHash data : Bytes) (hdc : s.deltaCache = []) :
    (findSimilarChunk e fuel s chunkHash data).1 = none := by
  simp [findSimilarChunk, hdc, lookupA, findExisting, findBySize]

theorem compressOne_nodelta (e : Env) (fuel : Nat) (s : StoreState)
    (ch : FileChunk) (hdc : s.deltaCache = []) :
    (compressOne e fuel s ch).1 =
      (ch.hash, compressChunkData e.codec ch.data, none) := by
  simp only [compressOne]
  by_cases hbig : ch.data.length > 1024
  · rw [if_pos hbig]
    rw [findSimilarChunk_none e fuel s ch.hash ch.data hdc]
  · rw [if_neg hbig]

theorem compressPhase_nodelta (e : Env) (fuel : Nat) :
    ∀ (l : List FileChunk) (s : StoreState), s.deltaCache = [] →
      ∀ t ∈ (compressPhase e fuel s l).1,
        t.2.2 = none ∧ t.2.1.headD 0 ≠ 3 := by
  intro l
  induction l with
  | nil =>
      intro s _ t ht
      simp [compressPhase] at ht
  | cons ch rest ih =>
      intro s hdc t ht
      simp only [compressPhase, List.mem_cons] at ht
      rcases ht with ht | ht
      · rw [ht, compressOne_nodelta e fuel s ch hdc]
        exact ⟨rfl, compressChunkData_headD _ _⟩
      · obtain ⟨_, _, _, _, cdc⟩ := compressOne_fields e fuel s ch
        exact ih (compressOne e fuel s ch).2 (by rw [cdc, hdc]) t ht

theorem writePhase_nodelta :
    ∀ (l : List (Bytes × Bytes × Option Bytes)) (s : StoreState),
      (∀ t ∈ l, t.2.2 = none ∧ t.2.1.headD 0 ≠ 3) → NoDelta s.fs →
      NoDelta (writePhase s l).fs ∧
      (writePhase s l).deltaCache = s.deltaCache := by
  intro l
  induction l with
  | nil => intro s _ hnd; exact ⟨hnd, rfl⟩
  | cons t rest ih =>
      intro s hall hnd
      obtain ⟨h1, rec, bopt⟩ := t
      obtain ⟨hnone, hhead⟩ := hall _ (List.mem_cons_self _ _)
      simp only at hnone hhead
      subst hnone
      have hgoal : writePhase s ((h1, rec, none) :: rest) =
          writePhase { s with fs := insertA s.fs h1 rec } rest := rfl
      rw [hgoal]
      refine ih { s with fs := insertA s.fs h1 rec }
        (fun t ht => hall t (List.mem_cons_of_mem _ ht)) ?_
      intro kv hkv
      rcases mem_insertA kv hkv with rfl | hkv'
      · exact hhead
      · exact hnd kv hkv'

theorem loadChunk_fsdc (e : Env) (fuel : Nat) (s : StoreState) (h : Bytes) :
    (loadChunk e fuel s h).2.fs = s.fs ∧
    (loadChunk e fuel s h).2.deltaCache = s.deltaCache := by
  simp only [loadChunk]
  cases hc : lookupA s.chunkCache h with
  | some d => exact ⟨rfl, rfl⟩
  | none =>
      cases hu : loadChunkUncached e s.fs fuel h with
      | error er => exact ⟨rfl, rfl⟩
      | ok d =>
          obtain ⟨hfs, _, _, hdc, _⟩ := maybeCacheChunk_fields s h d
          exact ⟨hfs, hdc⟩

theorem cacheFold_fsdc :
    ∀ (pairs : List (Bytes × Bytes)) (s : StoreState),
      (pairs.foldl (fun st p => maybeCacheChunk st p.1 p.2) s).fs = s.fs ∧
      (pairs.foldl (fun st p => maybeCacheChunk st p.1 p.2) s).deltaCache =
        s.deltaCache := by
  intro pairs
  induction pairs with
  | nil => intro s; exact ⟨rfl, rfl⟩
  | cons p rest ih =>
      intro s
      obtain ⟨hfs, _, _, hdc, _⟩ := maybeCacheChunk_fields s p.1 p.2
      obtain ⟨ifs, idc⟩ := ih (maybeCacheChunk s p.1 p.2)
      simp only [List.foldl_cons]
      exact ⟨by rw [ifs, hfs], by rw [idc, hdc]⟩

/-- Reachability invariant: the engine never writes a type-3 delta
record (the delta cache starts empty, is never persisted, and is only
fed from successful delta writes, which require a nonempty delta
cache — the bootstrapping gap noted in the design notes). -/
theorem reach_noDelta (e : Env) (s : StoreState) (hreach : Reach e s) :
    NoDelta s.fs ∧ s.deltaCache = [] := by
  induction hreach with
  | init => exact ⟨by intro kv hkv; simp [initialStore] at hkv, rfl⟩
  | reopen _ ih => exact ⟨ih.1, rfl⟩
  | storeChunkStep ch _ ih =>
      obtain ⟨hnd, hdc⟩ := ih
      rename_i s' _
      obtain ⟨_, _, _, hfs, hdcx⟩ := chunkExists_fields s' ch.hash
      simp only [storeChunk]
      by_cases hex : (chunkExists s' ch.hash).1
      · rw [if_pos hex]
        exact ⟨by rw [hfs]; exact hnd, by rw [hdcx, hdc]⟩
      · rw [if_neg hex]
        obtain ⟨mfs, mdc⟩ := markStored_fsdc
          { (chunkExists s' ch.hash).2 with
            fs := insertA (chunkExists s' ch.hash).2.fs ch.hash
              (compressChunkData e.codec ch.data) } ch.hash ch.data
        constructor
        · rw [mfs]
          intro kv hkv
          simp only at hkv
          rcases mem_insertA kv hkv with rfl | hkv'
          · exact compressChunkData_headD _ _
          · rw [hfs] at hkv'
            exact hnd kv hkv'
        · rw [mdc]
          simp only
          rw [hdcx, hdc]
  | storeChunksStep fuel chunks _ ih =>
      obtain ⟨hnd, hdc⟩ := ih
      rename_i s' _
      simp only [storeChunks]
      by_cases hnil : chunks = []
      · rw [if_pos hnil]
        exact ⟨hnd, hdc⟩
      · rw [if_neg hnil]
        obtain ⟨_, _, _, ffs, fdc, _, _⟩ :=
          filterNew_spec (dedupeByHash [] chunks) s'
        by_cases hfn : (filterNew s' (dedupeByHash [] chunks)).1 = []
        · rw [if_pos hfn]
          exact ⟨by rw [ffs]; exact hnd, by rw [fdc, hdc]⟩
        · rw [if_neg hfn]
          obtain ⟨_, _, _, cfs, cdc⟩ := compressPhase_fields e fuel
            (filterNew s' (dedupeByHash [] chunks)).1
            (filterNew s' (dedupeByHash [] chunks)).2
          have hdcf : (filterNew s' (dedupeByHash [] chunks)).2.deltaCache =
              [] := by rw [fdc, hdc]
          have hall := compressPhase_nodelta e fuel
            (filterNew s' (dedupeByHash [] chunks)).1
            (filterNew s' (dedupeByHash [] chunks)).2 hdcf
          obtain ⟨wnd, wdc⟩ := writePhase_nodelta
            (compressPhase e fuel (filterNew s' (dedupeByHash [] chunks)).2
              (filterNew s' (dedupeByHash [] chunks)).1).1
            (compressPhase e fuel (filterNew s' (dedupeByHash [] chunks)).2
              (filterNew s' (dedupeByHash [] chunks)).1).2
            hall (by rw [cfs, ffs]; exact hnd)
          obtain ⟨mfs, mdc⟩ := markAllStored_fsdc
            (filterNew s' (dedupeByHash [] chunks)).1
            (writePhase (compressPhase e fuel
              (filterNew s' (dedupeByHash [] chunks)).2
              (filterNew s' (dedupeByHash [] chunks)).1).2
              (compressPhase e fuel (filterNew s' (dedupeByHash [] chunks)).2
                (filterNew s' (dedupeByHash [] chunks)).1).1)
          exact ⟨by rw [mfs]; exact wnd, by rw [mdc, wdc, cdc, hdcf]⟩
  | loadChunkStep fuel h _ ih =>
      rename_i s' _
      obtain ⟨hfs, hdc⟩ := loadChunk_fsdc e fuel s' h
      exact ⟨by rw [hfs]; exact ih.1, by rw [hdc, ih.2]⟩
  | loadChunksStep fuel hashes _ ih =>
      rename_i s' _
      simp only [loadChunks]
      cases hcol : collectE (loadChunkUncached e s'.fs fuel) hashes with
      | error er => exact ih
      | ok datas =>
          obtain ⟨hfs, hdc⟩ := cacheFold_fsdc (hashes.zip datas) s'
          exact ⟨by rw [hfs]; exact ih.1, by rw [hdc, ih.2]⟩
  | gcStep active _ ih =>
      rename_i s' _
      constructor
      · intro kv hkv
        simp only [garbageCollect] at hkv
        exact ih.1 kv (List.mem_of_mem_filter hkv)
      · simp only [garbageCollect]
        exact ih.2
  | clearCacheStep _ ih => exact ⟨ih.1, rfl⟩

theorem lookupA_filterK {β : Type} (p : Bytes → Bool)
    (l : List (Bytes × β)) (k : Bytes) :
    lookupA (l.filter (fun kv => p kv.1)) k =
      if p k = true then lookupA l k else none := by
  induction l with
  | nil => simp [lookupA]
  | cons q rest ih =>
      obtain ⟨qk, qv⟩ := q
      simp only [List.filter_cons]
      by_cases hk : qk = k
      · subst hk
        by_cases hp : p qk = true
        · rw [if_pos hp, if_pos hp]
          simp [lookupA]
        · rw [if_neg hp, ih, if_neg hp, if_neg hp]
      · have hlk : lookupA ((qk, qv) :: rest) k = lookupA rest k := by
          simp [lookupA, hk]
        by_cases hp : p qk = true
        · rw [if_pos hp]
          have hstep : lookupA ((qk, qv) :: rest.filter (fun kv => p kv.1)) k =
              lookupA (rest.filter (fun kv => p kv.1)) k := by
            simp [lookupA, hk]
          rw [hstep, ih, hlk]
        · rw [if_neg hp, ih, hlk]

theorem gc_lookup (s : StoreState) (active : List Bytes) (h : Bytes) :
    lookupA (garbageCollect s active).1.fs h =
      if h.length < 2 ∨ h ∈ active then lookupA s.fs h else none := by
  have h1 : lookupA
      (s.fs.filter (fun kv =>
        (fun hh => decide (hh.length < 2 ∨ hh ∈ active)) kv.1)) h =
      if (fun hh => decide (hh.length < 2 ∨ hh ∈ active)) h = true then
        lookupA s.fs h else none :=
    lookupA_filterK (fun hh => decide (hh.length < 2 ∨ hh ∈ active)) s.fs h
  by_cases hcond : h.length < 2 ∨ h ∈ active
  · rw [if_pos hcond]
    have hd : decide (h.length < 2 ∨ h ∈ active) = true := by
      simp [hcond]
    simp only [hd, if_pos rfl] at h1
    exact h1
  · rw [if_neg hcond]
    have hd : decide (h.length < 2 ∨ h ∈ active) = false := by
      simp [hcond]
    simp only [hd] at h1
    simp only [Bool.false_eq_true, if_false] at h1
    exact h1

theorem gc_count_aux (active : List Bytes) :
    ∀ l : List (Bytes × Bytes),
      ((l.filter (fun kv => 2 ≤ kv.1.length ∧ kv.1 ∉ active)).map
        (·.1)).length +
      (l.filter (fun kv => kv.1.length < 2 ∨ kv.1 ∈ active)).length =
      l.length := by
  intro l
  induction l with
  | nil => rfl
  | cons kv rest ih =>
      simp only [List.filter_cons, decide_eq_true_eq]
      by_cases h1 : kv.1.length < 2 ∨ kv.1 ∈ active
      · have h2 : ¬ (2 ≤ kv.1.length ∧ kv.1 ∉ active) := fun hc =>
          h1.elim (fun hlt => absurd hc.1 (by omega)) (fun hm => hc.2 hm)
        rw [if_pos h1, if_neg h2]
        simp only [List.length_cons]
        omega
      · have h2 : 2 ≤ kv.1.length ∧ kv.1 ∉ active := by
          constructor
          · by_contra hc
            exact h1 (Or.inl (by omega))
          · exact fun hm => h1 (Or.inr hm)
        rw [if_neg h1, if_pos h2]
        simp only [List.map_cons, List.length_cons]
        omega

theorem gc_count (s : StoreState) (active : List Bytes) :
    (garbageCollect s active).2 + (garbageCollect s active).1.fs.length =
      s.fs.length :=
  gc_count_aux active s.fs

theorem decodeRecord_congr_base (c : Codec)
    (lb lb' : Bytes → Except BlazeError Bytes) (fd : Bytes)
    (hfd : fd.headD 0 ≠ 3) :
    decodeRecord c lb fd = decodeRecord c lb' fd := by
  simp only [decodeRecord, if_neg hfd]

theorem loadChunkUncached_frame (e : Env) (fs fs' : List (Bytes × Bytes))
    (h : Bytes) (n : Nat) (d : Bytes) (hnd : NoDelta fs)
    (hlk : lookupA fs' h = lookupA fs h)
    (hok : loadChunkUncached e fs n h = .ok d) :
    loadChunkUncached e fs' n h = .ok d := by
  cases n with
  | zero => simp [loadChunkUncached] at hok
  | succ m =>
      have e1 : loadChunkUncached e fs (m + 1) h =
          loadStep e fs (loadChunkUncached e fs m) h := rfl
      have e2 : loadChunkUncached e fs' (m + 1) h =
          loadStep e fs' (loadChunkUncached e fs' m) h := rfl
      rw [e1] at hok
      rw [e2]
      simp only [loadStep, hlk] at hok ⊢
      cases hfd : lookupA fs h with
      | none => rw [hfd] at hok; exact absurd hok (by simp)
      | some fd =>
          rw [hfd] at hok
          simp only at hok ⊢
          by_cases hemp : fd = []
          · rw [if_pos hemp] at hok
            exact absurd hok (by simp)
          · rw [if_neg hemp] at hok ⊢
            have hnd3 : fd.headD 0 ≠ 3 := hnd (h, fd) (lookupA_mem hfd)
            rw [decodeRecord_congr_base e.codec (loadChunkUncached e fs' m)
              (loadChunkUncached e fs m) fd hnd3]
            exact hok

/-- C7: garbage collection over a reachable store is exact for the
active set: a record survives exactly when its digest is shorter than
the two-character fan-out name or is active, the returned count is the
number of records removed, and every load that succeeded before the
collection still returns the same bytes afterwards whenever its digest
is active. -/
theorem c7_garbage_collect (e : Env) (s : StoreState) (active : List Bytes)
    (hreach : Reach e s) :
    (∀ h : Bytes, lookupA (garbageCollect s active).1.fs h =
        if h.length < 2 ∨ h ∈ active then lookupA s.fs h else none) ∧
    ((garbageCollect s active).2 + (garbageCollect s active).1.fs.length =
      s.fs.length) ∧
    (∀ h ∈ active, ∀ n d, loadChunkUncached e s.fs n h = .ok d →
        loadChunkUncached e (garbageCollect s active).1.fs n h = .ok d) := by
  refine ⟨fun h => gc_lookup s active h, gc_count s active, ?_⟩
  intro h hmem n d hok
  have hnd : NoDelta s.fs := (reach_noDelta e s hreach).1
  have hlk : lookupA (garbageCollect s active).1.fs h = lookupA s.fs h := by
    rw [gc_lookup s active h, if_pos (Or.inr hmem)]
  exact loadChunkUncached_frame e s.fs (garbageCollect s active).1.fs h n d
    hnd hlk hok

/-- C7 witness: on the concrete store holding the single chunk `[9]`,
collecting with that digest active keeps its record, reports zero
removals, and the chunk still loads. -/
theorem c7_garbage_collect_witness :
    lookupA (garbageCollect storeW [hashW [9]]).1.fs (hashW [9]) =
      lookupA storeW.fs (hashW [9]) ∧
    (garbageCollect storeW [hashW [9]]).2 +
      (garbageCollect storeW [hashW [9]]).1.fs.length =
      storeW.fs.length ∧
    loadChunkUncached envW (garbageCollect storeW [hashW [9]]).1.fs 1
      (hashW [9]) = .ok [9] := by
  have hc := c7_garbage_collect envW storeW [hashW [9]]
    (Reach.storeChunkStep chunkW Reach.init)
  refine ⟨?_, hc.2.1, ?_⟩
  · rw [hc.1 (hashW [9])]
    rw [if_pos (Or.inr (List.mem_singleton.mpr rfl))]
  · exact hc.2.2 (hashW [9]) (List.mem_singleton.mpr rfl) 1 [9] rfl


/-! ## Claim C1: chunk-store round trip -/

theorem decompress_compress (c : Codec) (hc : CodecOk c) (d : Bytes)
    (hlen : d.length ≤ ZSTD_MAX) :
    decompressChunkData c (compressChunkData c d) = .ok d := by
  simp only [compressChunkData]
  by_cases hsmall : d.length < 128
  · rw [if_pos hsmall]
    simp [decompressChunkData]
  · rw [if_neg hsmall]
    cases hz : c.zstdCompress d (compressionLevel d.length) with
    | some comp =>
        by_cases hgood : comp.length < d.length * 9 / 10
        · simp only [if_pos hgood]
          simp [decompressChunkData, hc.zstdRt d _ comp hlen hz]
        · simp only [if_neg hgood]
          by_cases hlz : (c.lz4Compress d).length < d.length * 95 / 100
          · rw [if_pos hlz]
            simp [decompressChunkData, hc.lz4Rt d]
          · rw [if_neg hlz]
            simp [decompressChunkData]
    | none =>
        by_cases hlz : (c.lz4Compress d).length < d.length * 95 / 100
        · rw [if_pos hlz]
          simp [decompressChunkData, hc.lz4Rt d]
        · rw [if_neg hlz]
          simp [decompressChunkData]

theorem compressChunkData_ne_nil (c : Codec) (d : Bytes) :
    compressChunkData c d ≠ [] := by
  simp only [compressChunkData]
  by_cases hsmall : d.length < 128
  · rw [if_pos hsmall]
    simp
  · rw [if_neg hsmall]
    cases hz : c.zstdCompress d (compressionLevel d.length) with
    | some comp =>
        by_cases hgood : comp.length < d.length * 9 / 10 <;>
          by_cases hlz : (c.lz4Compress d).length < d.length * 95 / 100 <;>
          simp [hgood, hlz]
    | none =>
        by_cases hlz : (c.lz4Compress d).length < d.length * 95 / 100 <;>
          simp [hlz]

theorem loadChunkUncached_compressed (e : Env) (fs : List (Bytes × Bytes))
    (h d : Bytes) (hc : CodecOk e.codec) (hlen : d.length ≤ ZSTD_MAX)
    (hlk : lookupA fs h = some (compressChunkData e.codec d))
    (hH : e.H d = h) :
    loadChunkUncached e fs 1 h = .ok d := by
  have e1 : loadChunkUncached e fs 1 h =
      loadStep e fs (loadChunkUncached e fs 0) h := rfl
  rw [e1]
  simp only [loadStep, hlk]
  rw [if_neg (compressChunkData_ne_nil e.codec d)]
  rw [decodeRecord_congr_base e.codec _ (fun _ => .error .ioErr)
    (compressChunkData e.codec d) (compressChunkData_headD e.codec d)]
  rw [decodeRecord, if_neg (by
    intro hcontra
    exact compressChunkData_headD e.codec d hcontra)]
  rw [decompress_compress e.codec hc d hlen]
  show (if e.debug = true ∧ e.H d ≠ h then
      Except.error (BlazeError.chunk "Chunk integrity check failed")
    else Except.ok d) = Except.ok d
  rw [if_neg (fun hcontra => hcontra.2 hH)]

theorem loadChunk_cached_ok (e : Env) (n : Nat) (s : StoreState)
    (h data : Bytes) (hcache : CacheOk e s)
    (hinj : Function.Injective e.H) (hH : e.H data = h)
    (hload : loadChunkUncached e s.fs n h = .ok data) :
    (loadChunk e n s h).1 = .ok data := by
  simp only [loadChunk]
  cases hcc : lookupA s.chunkCache h with
  | some c =>
      have hkey : e.H c = h := hcache (h, c) (lookupA_mem hcc)
      have : c = data := hinj (by rw [hkey, hH])
      rw [this]
  | none =>
      rw [hload]

theorem cacheOk_maybeCacheChunk (e : Env) (s : StoreState) (h data : Bytes)
    (hok : ∀ kv ∈ s.chunkCache, e.H kv.2 = kv.1) (hhd : e.H data = h) :
    ∀ kv ∈ (maybeCacheChunk s h data).chunkCache, e.H kv.2 = kv.1 := by
  intro kv hkv
  simp only [maybeCacheChunk] at hkv
  by_cases hbig : data.length > s.maxCacheSize / 4
  · rw [if_pos hbig] at hkv
    exact hok kv hkv
  · rw [if_neg hbig] at hkv
    simp only at hkv
    rcases mem_insertA kv hkv with rfl | hkv'
    · exact hhd
    · exact hok kv (evictLoop_subset kv hkv')

theorem cacheOk_markAllStored (e : Env) :
    ∀ (l : List FileChunk) (s : StoreState),
      (∀ kv ∈ s.chunkCache, e.H kv.2 = kv.1) →
      (∀ ch ∈ l, e.H ch.data = ch.hash) →
      ∀ kv ∈ (markAllStored s l).chunkCache, e.H kv.2 = kv.1 := by
  intro l
  induction l with
  | nil => intro s hok _; exact hok
  | cons ch rest ih =>
      intro s hok hall
      simp only [markAllStored]
      refine ih (markStored s ch.hash ch.data) ?_
        (fun c hc => hall c (List.mem_cons_of_mem _ hc))
      intro kv hkv
      have hmk : (markStored s ch.hash ch.data).chunkCache =
          (maybeCacheChunk s ch.hash ch.data).chunkCache := rfl
      rw [hmk] at hkv
      exact cacheOk_maybeCacheChunk e s ch.hash ch.data hok
        (hall ch (List.mem_cons_self _ _)) kv hkv

theorem chunkExists_sound (s : StoreState) (h : Bytes)
    (hex : ExistOk s) (hcif : CacheInFs s) (hneg : NegOk s) :
    ExistOk (chunkExists s h).2 ∧ CacheInFs (chunkExists s h).2 ∧
    NegOk (chunkExists s h).2 ∧
    ((chunkExists s h).1 = true → (lookupA s.fs h).isSome) ∧
    ((chunkExists s h).1 = false → lookupA s.fs h = none) := by
  simp only [chunkExists]
  by_cases h1 : (lookupA s.chunkCache h).isSome
  · rw [if_pos h1]
    refine ⟨hex, hcif, hneg, fun _ => ?_, fun hc => by simp at hc⟩
    cases hcc : lookupA s.chunkCache h with
    | none => rw [hcc] at h1; simp at h1
    | some c => exact hcif (h, c) (lookupA_mem hcc)
  · rw [if_neg h1]
    by_cases h2 : h ∈ s.existenceCache
    · rw [if_pos h2]
      exact ⟨hex, hcif, hneg, fun _ => hex h h2, fun hc => by simp at hc⟩
    · rw [if_neg h2]
      by_cases h3 : h ∈ s.negativeCache
      · rw [if_pos h3]
        exact ⟨hex, hcif, hneg, fun hc => by simp at hc, fun _ => hneg h h3⟩
      · rw [if_neg h3]
        by_cases h4 : (lookupA s.fs h).isSome
        · rw [if_pos h4]
          refine ⟨?_, hcif, hneg, fun _ => h4, fun hc => by simp at hc⟩
          intro h' hh'
          simp only at hh'
          rcases List.mem_cons.mp hh' with rfl | hh''
          · exact h4
          · exact hex h' hh''
        · rw [if_neg h4]
          refine ⟨hex, hcif, ?_, fun hc => by simp at hc, fun _ => ?_⟩
          · intro h' hh'
            simp only at hh'
            rcases List.mem_cons.mp hh' with rfl | hh''
            · cases hlk : lookupA s.fs h' with
              | none => rfl
              | some v => rw [hlk] at h4; simp at h4
            · exact hneg h' hh''
          · cases hlk : lookupA s.fs h with
            | none => rfl
            | some v => rw [hlk] at h4; simp at h4

theorem filterNew_sound :
    ∀ (l : List FileChunk) (s : StoreState),
      ExistOk s → CacheInFs s → NegOk s →
      ExistOk (filterNew s l).2 ∧ CacheInFs (filterNew s l).2 ∧
      NegOk (filterNew s l).2 ∧
      (∀ ch ∈ (filterNew s l).1, lookupA s.fs ch.hash = none) ∧
      (∀ ch ∈ l, (lookupA s.fs ch.hash).isSome ∨ ch ∈ (filterNew s l).1) := by
  intro l
  induction l with
  | nil =>
      intro s hex hcif hneg
      exact ⟨hex, hcif, hneg, by simp [filterNew], by simp⟩
  | cons ch rest ih =>
      intro s hex hcif hneg
      obtain ⟨hex1, hcif1, hneg1, htrue, hfalse⟩ :=
        chunkExists_sound s ch.hash hex hcif hneg
      obtain ⟨_, _, _, hfs1, _⟩ := chunkExists_fields s ch.hash
      obtain ⟨iex, icif, ineg, inone, icov⟩ :=
        ih (chunkExists s ch.hash).2 hex1 hcif1 hneg1
      rw [hfs1] at inone icov
      simp only [filterNew]
      by_cases hb : (chunkExists s ch.hash).1
      · rw [if_pos hb]
        refine ⟨iex, icif, ineg, inone, ?_⟩
        intro c hc
        rcases List.mem_cons.mp hc with rfl | hc'
        · exact Or.inl (htrue hb)
        · exact icov c hc'
      · rw [if_neg hb]
        refine ⟨iex, icif, ineg, ?_, ?_⟩
        · intro c hc
          rcases List.mem_cons.mp hc with rfl | hc'
          · exact hfalse (by simpa using hb)
          · exact inone c hc'
        · intro c hc
          rcases List.mem_cons.mp hc with rfl | hc'
          · exact Or.inr (List.mem_cons_self _ _)
          · rcases icov c hc' with hs | hm
            · exact Or.inl hs
            · exact Or.inr (List.mem_cons_of_mem _ hm)

theorem dedupeByHash_subset :
    ∀ (l : List FileChunk) (seen : List Bytes),
      ∀ ch ∈ dedupeByHash seen l, ch ∈ l := by
  intro l
  induction l with
  | nil => intro seen ch hch; simp [dedupeByHash] at hch
  | cons c rest ih =>
      intro seen ch hch
      simp only [dedupeByHash] at hch
      by_cases hs : c.hash ∈ seen
      · rw [if_pos hs] at hch
        exact List.mem_cons_of_mem _ (ih seen ch hch)
      · rw [if_neg hs] at hch
        rcases List.mem_cons.mp hch with rfl | hch'
        · exact List.mem_cons_self _ _
        · exact List.mem_cons_of_mem _ (ih (c.hash :: seen) ch hch')

theorem dedupeByHash_not_seen :
    ∀ (l : List FileChunk) (seen : List Bytes),
      ∀ ch ∈ dedupeByHash seen l, ch.hash ∉ seen := by
  intro l
  induction l with
  | nil => intro seen ch hch; simp [dedupeByHash] at hch
  | cons c rest ih =>
      intro seen ch hch
      simp only [dedupeByHash] at hch
      by_cases hs : c.hash ∈ seen
      · rw [if_pos hs] at hch
        exact ih seen ch hch
      · rw [if_neg hs] at hch
        rcases List.mem_cons.mp hch with rfl | hch'
        · exact hs
        · intro hmem
          exact ih (c.hash :: seen) ch hch' (List.mem_cons_of_mem _ hmem)

theorem dedupeByHash_nodup :
    ∀ (l : List FileChunk) (seen : List Bytes),
      ((dedupeByHash seen l).map (·.hash)).Nodup := by
  intro l
  induction l with
  | nil => intro seen; simp [dedupeByHash]
  | cons c rest ih =>
      intro seen
      simp only [dedupeByHash]
      by_cases hs : c.hash ∈ seen
      · rw [if_pos hs]
        exact ih seen
      · rw [if_neg hs]
        simp only [List.map_cons, List.nodup_cons]
        refine ⟨?_, ih (c.hash :: seen)⟩
        intro hmem
        rcases List.mem_map.mp hmem with ⟨ch, hch, hh⟩
        exact dedupeByHash_not_seen rest (c.hash :: seen) ch hch
          (hh ▸ List.mem_cons_self _ _)

theorem dedupeByHash_cover :
    ∀ (l : List FileChunk) (seen : List Bytes),
      ∀ ch ∈ l, ch.hash ∉ seen →
        ∃ ch2, ch2 ∈ dedupeByHash seen l ∧ ch2.hash = ch.hash := by
  intro l
  induction l with
  | nil => intro seen ch hch; simp at hch
  | cons c rest ih =>
      intro seen ch hch hns
      simp only [dedupeByHash]
      by_cases hs : c.hash ∈ seen
      · rw [if_pos hs]
        rcases List.mem_cons.mp hch with rfl | hch'
        · exact absurd hs hns
        · exact ih seen ch hch' hns
      · rw [if_neg hs]
        rcases List.mem_cons.mp hch with rfl | hch'
        · exact ⟨ch, List.mem_cons_self _ _, rfl⟩
        · by_cases heq : ch.hash = c.hash
          · exact ⟨c, List.mem_cons_self _ _, heq.symm⟩
          · have hns' : ch.hash ∉ c.hash :: seen := by
              intro hmem
              rcases List.mem_cons.mp hmem with h' | h'
              · exact heq h'
              · exact hns h'
            obtain ⟨ch2, hm2, hh2⟩ := ih (c.hash :: seen) ch hch' hns'
            exact ⟨ch2, List.mem_cons_of_mem _ hm2, hh2⟩

theorem writePhase_cache :
    ∀ (l : List (Bytes × Bytes × Option Bytes)) (s : StoreState),
      (writePhase s l).chunkCache = s.chunkCache ∧
      (writePhase s l).currentCacheSize = s.currentCacheSize ∧
      (writePhase s l).maxCacheSize = s.maxCacheSize ∧
      (writePhase s l).existenceCache = s.existenceCache ∧
      (writePhase s l).negativeCache = s.negativeCache := by
  intro l
  induction l with
  | nil => intro s; exact ⟨rfl, rfl, rfl, rfl, rfl⟩
  | cons t rest ih =>
      intro s
      obtain ⟨h1, rec, bopt⟩ := t
      cases bopt with
      | none =>
          have hg : writePhase s ((h1, rec, none) :: rest) =
              writePhase { s with fs := insertA s.fs h1 rec } rest := rfl
          rw [hg]
          exact ih { s with fs := insertA s.fs h1 rec }
      | some bh =>
          have hg : writePhase s ((h1, rec, some bh) :: rest) =
              writePhase { s with fs := insertA s.fs h1 rec, deltaCache := pushDeltaCache s.deltaCache bh h1 } rest := rfl
          rw [hg]
          exact ih _

theorem writePhase_lookup_frame :
    ∀ (l : List (Bytes × Bytes × Option Bytes)) (s : StoreState) (h : Bytes),
      h ∉ l.map (fun t => t.1) →
      lookupA (writePhase s l).fs h = lookupA s.fs h := by
  intro l
  induction l with
  | nil => intro s h _; rfl
  | cons t rest ih =>
      intro s h hmem
      simp only [List.map_cons, List.mem_cons] at hmem
      push_neg at hmem
      obtain ⟨h1, rec, bopt⟩ := t
      cases bopt with
      | none =>
          have hg : writePhase s ((h1, rec, none) :: rest) =
              writePhase { s with fs := insertA s.fs h1 rec } rest := rfl
          rw [hg, ih _ h hmem.2]
          exact lookupA_insertA_ne s.fs h1 h rec hmem.1
      | some bh =>
          have hg : writePhase s ((h1, rec, some bh) :: rest) =
              writePhase { s with fs := insertA s.fs h1 rec, deltaCache := pushDeltaCache s.deltaCache bh h1 } rest := rfl
          rw [hg, ih _ h hmem.2]
          exact lookupA_insertA_ne s.fs h1 h rec hmem.1

theorem writePhase_lookup_self :
    ∀ (l : List (Bytes × Bytes × Option Bytes)) (s : StoreState),
      (l.map (fun t => t.1)).Nodup →
      ∀ t ∈ l, lookupA (writePhase s l).fs t.1 = some t.2.1 := by
  intro l
  induction l with
  | nil => intro s _ t ht; simp at ht
  | cons q rest ih =>
      intro s hnd t ht
      simp only [List.map_cons, List.nodup_cons] at hnd
      obtain ⟨h1, rec, bopt⟩ := q
      rcases List.mem_cons.mp ht with rfl | ht'
      · cases bopt with
        | none =>
            show lookupA (writePhase s ((h1, rec, none) :: rest)).fs h1 =
              some rec
            have hg : writePhase s ((h1, rec, none) :: rest) =
                writePhase { s with fs := insertA s.fs h1 rec } rest := rfl
            rw [hg, writePhase_lookup_frame rest _ h1 hnd.1]
            exact lookupA_insertA_self s.fs h1 rec
        | some bh =>
            show lookupA (writePhase s ((h1, rec, some bh) :: rest)).fs h1 =
              some rec
            have hg : writePhase s ((h1, rec, some bh) :: rest) =
                writePhase { s with fs := insertA s.fs h1 rec, deltaCache := pushDeltaCache s.deltaCache bh h1 } rest := rfl
            rw [hg, writePhase_lookup_frame rest _ h1 hnd.1]
            exact lookupA_insertA_self s.fs h1 rec
      · cases bopt with
        | none =>
            have hg : writePhase s ((h1, rec, none) :: rest) =
                writePhase { s with fs := insertA s.fs h1 rec } rest := rfl
            rw [hg]
            exact ih _ hnd.2 t ht'
        | some bh =>
            have hg : writePhase s ((h1, rec, some bh) :: rest) =
                writePhase { s with fs := insertA s.fs h1 rec, deltaCache := pushDeltaCache s.deltaCache bh h1 } rest := rfl
            rw [hg]
            exact ih _ hnd.2 t ht'

theorem compressPhase_nodelta_eq (e : Env) (fuel : Nat) :
    ∀ (l : List FileChunk) (s : StoreState), s.deltaCache = [] →
      (compressPhase e fuel s l).1 =
        l.map (fun ch => (ch.hash, compressChunkData e.codec ch.data, none)) := by
  intro l
  induction l with
  | nil => intro s _; rfl
  | cons ch rest ih =>
      intro s hdc
      obtain ⟨_, _, _, _, cdc⟩ := compressOne_fields e fuel s ch
      simp only [compressPhase, List.map_cons]
      rw [compressOne_nodelta e fuel s ch hdc, ih _ (by rw [cdc, hdc])]

/-- C1: chunk-store round trip.  On a reachable store satisfying the
cache and hash invariants, every chunk handed to `store_chunks` — and
every chunk handed to `store_chunk` — is returned verbatim by a
subsequent `load_chunk` of its digest, and the digest of the returned
bytes is the requested digest.  On reachable stores the type-3 delta
path never fires (the delta cache is always empty), so every record
written is a `compress_chunk_data` record and the claim's delta clause
is vacuously covered. -/
theorem c1_store_roundtrip (e : Env) (s : StoreState) (fuel : Nat)
    (chunks : List FileChunk) (hok : StoreOk e s) (hreach : Reach e s)
    (hwf : WfChunks e chunks) :
    (∀ ch ∈ chunks, ∃ n,
      (loadChunk e n (storeChunks e fuel s chunks).1 ch.hash).1 =
        .ok ch.data ∧ e.H ch.data = ch.hash) ∧
    (∀ ch : FileChunk, ch.hash = e.H ch.data → ch.data.length ≤ ZSTD_MAX →
      ∃ n, (loadChunk e n (storeChunk e.codec s ch).1 ch.hash).1 =
        .ok ch.data ∧ e.H ch.data = ch.hash) := by
  have hinj : Function.Injective e.H := hok.hashOk.inj
  have hnd : NoDelta s.fs := (reach_noDelta e s hreach).1
  have hdc : s.deltaCache = [] := (reach_noDelta e s hreach).2
  constructor
  · intro ch hch
    have hh : e.H ch.data = ch.hash := ((hwf ch hch).1).symm
    by_cases hnil : chunks = []
    · subst hnil
      simp at hch
    · obtain ⟨ch2, hm2, hh2⟩ := dedupeByHash_cover chunks [] ch hch (by simp)
      have hch2 : ch2 ∈ chunks := dedupeByHash_subset chunks [] ch2 hm2
      have hh2x : e.H ch2.data = ch2.hash := ((hwf ch2 hch2).1).symm
      have hdat : ch2.data = ch.data := hinj (by rw [hh2x, hh2, hh])
      rw [← hh2, ← hdat]
      have hlen2 : ch2.data.length ≤ ZSTD_MAX := (hwf ch2 hch2).2
      have hchar : (storeChunks e fuel s chunks).1 =
          if (filterNew s (dedupeByHash [] chunks)).1 = []
          then (filterNew s (dedupeByHash [] chunks)).2
          else markAllStored
            (writePhase
              (compressPhase e fuel (filterNew s (dedupeByHash [] chunks)).2
                (filterNew s (dedupeByHash [] chunks)).1).2
              (compressPhase e fuel (filterNew s (dedupeByHash [] chunks)).2
                (filterNew s (dedupeByHash [] chunks)).1).1)
            (filterNew s (dedupeByHash [] chunks)).1 := by
        simp only [storeChunks, if_neg hnil]
        by_cases hfn : (filterNew s (dedupeByHash [] chunks)).1 = [] <;>
          simp [hfn]
      obtain ⟨fex, fcif, fneg, fnone, fcov⟩ :=
        filterNew_sound (dedupeByHash [] chunks) s hok.existOk hok.cacheInFs
          hok.negOk
      obtain ⟨fcc, fcur, fmax, ffs, fdc, fsub, _⟩ :=
        filterNew_spec (dedupeByHash [] chunks) s
      rw [hchar]
      set fn := filterNew s (dedupeByHash [] chunks) with hfndef
      have hdcfn : fn.2.deltaCache = [] := by rw [fdc, hdc]
      have hcp1 : (compressPhase e fuel fn.2 fn.1).1 =
          fn.1.map (fun c => (c.hash, compressChunkData e.codec c.data, none)) :=
        compressPhase_nodelta_eq e fuel fn.1 fn.2 hdcfn
      obtain ⟨ccc, ccur, cmax, cfs, cdc⟩ := compressPhase_fields e fuel fn.1 fn.2
      set cp := compressPhase e fuel fn.2 fn.1 with hcpdef
      obtain ⟨wcc, wcur, wmax, wex, wneg⟩ := writePhase_cache cp.1 cp.2
      set s3 := writePhase cp.2 cp.1 with hs3def
      obtain ⟨mfs, mdc⟩ := markAllStored_fsdc fn.1 s3
      set s4 := markAllStored s3 fn.1 with hs4def
      by_cases hfn : fn.1 = []
      · rw [if_pos hfn]
        have hsome : (lookupA s.fs ch2.hash).isSome := by
          rcases fcov ch2 hm2 with hs | hm
          · exact hs
          · rw [hfn] at hm
            simp at hm
        obtain ⟨r, hr⟩ := Option.isSome_iff_exists.mp hsome
        obtain ⟨n, d, hload, hHd⟩ := hok.goodStore ch2.hash r hr
        have hd : d = ch2.data := hinj (by rw [hHd, hh2x])
        subst hd
        refine ⟨n, ?_, hh2x⟩
        refine loadChunk_cached_ok e n fn.2 ch2.hash ch2.data ?_ hinj hh2x ?_
        · intro kv hkv
          rw [fcc] at hkv
          exact hok.cacheOk kv hkv
        · rw [ffs]
          exact hload
      · rw [if_neg hfn]
        have hwf1 : ∀ c ∈ fn.1, e.H c.data = c.hash := by
          intro c hc
          have hcm : c ∈ chunks :=
            dedupeByHash_subset chunks [] c (fsub.mem hc)
          exact ((hwf c hcm).1).symm
        have hkeys : cp.1.map (fun t => t.1) = fn.1.map (fun c => c.hash) := by
          rw [hcp1, List.map_map]
          rfl
        have hnodup : (fn.1.map (fun c => c.hash)).Nodup :=
          (dedupeByHash_nodup chunks []).sublist
            (fsub.map (fun c : FileChunk => c.hash))
        have hcache4 : ∀ kv ∈ s4.chunkCache, e.H kv.2 = kv.1 := by
          have hbase : ∀ kv ∈ s3.chunkCache, e.H kv.2 = kv.1 := by
            intro kv hkv
            rw [wcc, ccc, fcc] at hkv
            exact hok.cacheOk kv hkv
          intro kv hkv
          exact cacheOk_markAllStored e fn.1 s3 hbase hwf1 kv hkv
        rcases fcov ch2 hm2 with hsome | hmem1
        · obtain ⟨r, hr⟩ := Option.isSome_iff_exists.mp hsome
          obtain ⟨n, d, hload, hHd⟩ := hok.goodStore ch2.hash r hr
          have hd : d = ch2.data := hinj (by rw [hHd, hh2x])
          subst hd
          have hnotin : ch2.hash ∉ cp.1.map (fun t => t.1) := by
            rw [hkeys]
            intro hmm
            obtain ⟨c, hc, hceq⟩ := List.mem_map.mp hmm
            have hcn := fnone c hc
            rw [hceq, hr] at hcn
            exact Option.noConfusion hcn
          have hlk : lookupA s4.fs ch2.hash = lookupA s.fs ch2.hash := by
            have hfr := writePhase_lookup_frame cp.1 cp.2 ch2.hash hnotin
            rw [← hs3def] at hfr
            rw [mfs, hfr, cfs, ffs]
          refine ⟨n, ?_, hh2x⟩
          refine loadChunk_cached_ok e n s4 ch2.hash ch2.data hcache4 hinj
            hh2x ?_
          exact loadChunkUncached_frame e s.fs s4.fs ch2.hash n ch2.data hnd
            hlk hload
        · have ht : (ch2.hash, compressChunkData e.codec ch2.data, none) ∈
              cp.1 := by
            rw [hcp1]
            exact List.mem_map.mpr ⟨ch2, hmem1, rfl⟩
          have hndk : (cp.1.map (fun t => t.1)).Nodup := by
            rw [hkeys]
            exact hnodup
          have hlkw := writePhase_lookup_self cp.1 cp.2 hndk _ ht
          rw [← hs3def] at hlkw
          have hlk4 : lookupA s4.fs ch2.hash =
              some (compressChunkData e.codec ch2.data) := by
            rw [mfs]
            exact hlkw
          refine ⟨1, ?_, hh2x⟩
          refine loadChunk_cached_ok e 1 s4 ch2.hash ch2.data hcache4 hinj
            hh2x ?_
          exact loadChunkUncached_compressed e s4.fs ch2.hash ch2.data
            hok.codecOk hlen2 hlk4 hh2x
  · intro ch hh hlen
    have hh' : e.H ch.data = ch.hash := hh.symm
    obtain ⟨hex1, hcif1, hneg1, htrue, hfalse⟩ :=
      chunkExists_sound s ch.hash hok.existOk hok.cacheInFs hok.negOk
    obtain ⟨ecc, ecur, emax, efs, edc⟩ := chunkExists_fields s ch.hash
    by_cases hb : (chunkExists s ch.hash).1
    · have hS : (storeChunk e.codec s ch).1 = (chunkExists s ch.hash).2 := by
        simp only [storeChunk]
        rw [if_pos hb]
      rw [hS]
      obtain ⟨r, hr⟩ := Option.isSome_iff_exists.mp (htrue hb)
      obtain ⟨n, d, hload, hHd⟩ := hok.goodStore ch.hash r hr
      have hd : d = ch.data := hinj (by rw [hHd, hh'])
      subst hd
      refine ⟨n, ?_, hh'⟩
      refine loadChunk_cached_ok e n _ ch.hash ch.data ?_ hinj hh' ?_
      · intro kv hkv
        rw [ecc] at hkv
        exact hok.cacheOk kv hkv
      · rw [efs]
        exact hload
    · have hS : (storeChunk e.codec s ch).1 =
          markStored { (chunkExists s ch.hash).2 with fs := insertA (chunkExists s ch.hash).2.fs ch.hash (compressChunkData e.codec ch.data) } ch.hash ch.data := by
        simp only [storeChunk]
        rw [if_neg hb]
      rw [hS]
      have hproj : ({ (chunkExists s ch.hash).2 with fs := insertA (chunkExists s ch.hash).2.fs ch.hash (compressChunkData e.codec ch.data) } : StoreState).chunkCache = (chunkExists s ch.hash).2.chunkCache := rfl
      obtain ⟨mfs, _⟩ := markStored_fsdc { (chunkExists s ch.hash).2 with fs := insertA (chunkExists s ch.hash).2.fs ch.hash (compressChunkData e.codec ch.data) } ch.hash ch.data
      have hfsS : (markStored { (chunkExists s ch.hash).2 with fs := insertA (chunkExists s ch.hash).2.fs ch.hash (compressChunkData e.codec ch.data) } ch.hash ch.data).fs = insertA s.fs ch.hash (compressChunkData e.codec ch.data) := by
        rw [mfs]
        show insertA (chunkExists s ch.hash).2.fs ch.hash
          (compressChunkData e.codec ch.data) = _
        rw [efs]
      have hcacheS : ∀ kv ∈ (markStored { (chunkExists s ch.hash).2 with fs := insertA (chunkExists s ch.hash).2.fs ch.hash (compressChunkData e.codec ch.data) } ch.hash ch.data).chunkCache, e.H kv.2 = kv.1 := by
        intro kv hkv
        refine cacheOk_maybeCacheChunk e _ ch.hash ch.data ?_ hh' kv hkv
        intro kv2 hkv2
        rw [hproj, ecc] at hkv2
        exact hok.cacheOk kv2 hkv2
      refine ⟨1, ?_, hh'⟩
      refine loadChunk_cached_ok e 1 _ ch.hash ch.data hcacheS hinj hh' ?_
      refine loadChunkUncached_compressed e _ ch.hash ch.data hok.codecOk
        hlen ?_ hh'
      rw [hfsS]
      exact lookupA_insertA_self s.fs ch.hash (compressChunkData e.codec ch.data)

theorem codecW_ok : CodecOk codecW := by
  constructor
  · intro d lvl out _ hc
    simp [codecW] at hc
  · intro d
    simp [codecW]

theorem initialStore_storeOk : StoreOk envW initialStore := by
  constructor
  · exact codecW_ok
  · exact hashW_hashOk
  · intro h r hl
    simp [initialStore, lookupA] at hl
  · intro kv hkv
    simp [initialStore] at hkv
  · intro kv hkv
    simp [initialStore] at hkv
  · intro h hmem
    simp [initialStore] at hmem
  · intro h hmem
    simp [initialStore] at hmem

/-- C1 witness: storing the single chunk `[9]` on a fresh store and
then loading its digest returns `[9]`, and the digest of the returned
bytes is the requested digest. -/
theorem c1_store_roundtrip_witness :
    ∃ n, (loadChunk envW n (storeChunks envW 1 initialStore [chunkW]).1
        chunkW.hash).1 = .ok chunkW.data ∧
      envW.H chunkW.data = chunkW.hash := by
  have hwf : WfChunks envW [chunkW] := by
    intro c hc
    rw [List.mem_singleton.mp hc]
    exact ⟨rfl, by decide⟩
  exact (c1_store_roundtrip envW initialStore 1 [chunkW] initialStore_storeOk
    Reach.init hwf).1 chunkW (List.mem_singleton.mpr rfl)
